import Mathlib

/-!
# grobi: the xrandr output parser (`cmd/grobi/randr.go`)

A shallow embedding of `ParseOutputLine`, `ParseModeLine` and `RandrParse`,
together with the parts of the Go standard library they call
(`strings.HasPrefix`, `bufio.Scanner` with `bufio.ScanWords` and
`bufio.ScanLines`, `utf8.DecodeRune`).

Conventions of the embedding:

* a Go `string` / `[]byte` is a list of bytes (`Bytes`, natural numbers below 256);
* a Go function returning `(T, error)` returns a pair `T × Option Error`
  (`none` is the `nil` error), so that both returned values stay visible;
* a run-time panic (index out of range) is the outcome `Outcome.panicked`;
* a `bufio.Scanner` is represented by the bytes it has not consumed yet; its
  buffer holds at most `MaxScanTokenSize` bytes, and a token that does not fit
  makes `Scan` report `false` (the error `ErrTooLong`, which the parser never
  reads);
* a reader is represented by its content: it delivers the content without a
  read error and reports the end of the input by a read of no bytes.
-/

namespace Grobi

/-! ## Data model -/

/-- Go strings and byte slices. -/
abbrev Bytes := List Nat

/-- The bytes of an ASCII string literal. -/
def ascii (s : String) : Bytes := s.toList.map Char.toNat

/-- Mode is an output mode that may be active or default. -/
structure Mode where
  Name : Bytes := []
  Default : Bool := false
  Active : Bool := false
deriving DecidableEq, Repr

/-- Output encapsulates a physical output with detected modes. -/
structure Output where
  Name : Bytes := []
  Modes : List Mode := []
  Connected : Bool := false
deriving DecidableEq, Repr

/-- The error values the parser can return.  `ErrNotModeLine` is the package
level sentinel; the other constructors stand for the values built by
`fmt.Errorf` at the six `return` sites, with the value that is formatted into
the message. -/
inductive Error where
  | ErrNotModeLine
  | nameNotFound (line : Bytes)
  | stateNotFound (line : Bytes)
  | unknownState (state : Bytes)
  | modeNameNotFound (line : Bytes)
  | noRefreshRate (line : Bytes)
  | unexpectedFirstLine (line : Bytes)
deriving DecidableEq, Repr

/-- A call either returns its results or panics at run time. -/
inductive Outcome (α : Type) where
  | returned (v : α)
  | panicked
deriving DecidableEq, Repr

/-! ## Standard library -/

/-- The rune `utf8.RuneError`. -/
def RuneError : Nat := 0xFFFD

/-- The function `utf8.DecodeRune`: the first rune of `p` and its width in
bytes; an invalid or incomplete encoding yields `(RuneError, 1)`, the empty
input `(RuneError, 0)`. -/
def DecodeRune (p : Bytes) : Nat × Nat :=
  match p with
  | [] => (RuneError, 0)
  | p0 :: t =>
    if p0 < 0x80 then (p0, 1)
    else if p0 < 0xC2 ∨ 0xF4 < p0 then (RuneError, 1)
    else
      let sz := if p0 < 0xE0 then 2 else if p0 < 0xF0 then 3 else 4
      let lo := if p0 = 0xE0 then 0xA0 else if p0 = 0xF0 then 0x90 else 0x80
      let hi := if p0 = 0xED then 0x9F else if p0 = 0xF4 then 0x8F else 0xBF
      if t.length + 1 < sz then (RuneError, 1)
      else
        match t with
        | [] => (RuneError, 1)
        | b1 :: t1 =>
          if b1 < lo ∨ hi < b1 then (RuneError, 1)
          else if sz ≤ 2 then ((p0 % 32) * 64 + b1 % 64, 2)
          else
            match t1 with
            | [] => (RuneError, 1)
            | b2 :: t2 =>
              if b2 < 0x80 ∨ 0xBF < b2 then (RuneError, 1)
              else if sz ≤ 3 then ((p0 % 16) * 4096 + (b1 % 64) * 64 + b2 % 64, 3)
              else
                match t2 with
                | [] => (RuneError, 1)
                | b3 :: _ =>
                  if b3 < 0x80 ∨ 0xBF < b3 then (RuneError, 1)
                  else ((p0 % 8) * 262144 + (b1 % 64) * 4096 + (b2 % 64) * 64 + b3 % 64, 4)

/-- The function `isSpace` of package `bufio`: Unicode white space. -/
def isSpace (r : Nat) : Bool :=
  if r ≤ 0xFF then
    r == 0x20 || r == 0x09 || r == 0x0A || r == 0x0B || r == 0x0C || r == 0x0D
      || r == 0x85 || r == 0xA0
  else if 0x2000 ≤ r ∧ r ≤ 0x200A then true
  else r == 0x1680 || r == 0x2028 || r == 0x2029 || r == 0x202F || r == 0x205F
      || r == 0x3000

/-- The function `strings.HasPrefix`. -/
def HasPrefix (s pre : Bytes) : Bool :=
  decide (pre.length ≤ s.length) && s.take pre.length == pre

/-- First loop of `bufio.ScanWords`: skip leading spaces.  The fuel bounds the
number of iterations; each one consumes at least one byte. -/
def skipSpaces : Nat → Bytes → Bytes
  | 0, data => data
  | fuel + 1, data =>
    match data with
    | [] => []
    | _ :: _ =>
      let rw := DecodeRune data
      if isSpace rw.1 then skipSpaces fuel (data.drop rw.2) else data

/-- Second loop of `bufio.ScanWords`: scan until a space, marking the end of
the word.  Returns the word (accumulated in `tok`) and the bytes after the
space that ends it; `none` when the data end before a space is found. -/
def scanWord : Nat → Bytes → Bytes → Option (Bytes × Bytes)
  | 0, _, _ => none
  | fuel + 1, tok, data =>
    match data with
    | [] => none
    | _ :: _ =>
      let rw := DecodeRune data
      if isSpace rw.1 then some (tok, data.drop rw.2)
      else scanWord fuel (tok ++ data.take rw.2) (data.drop rw.2)

/-- The constant `bufio.MaxScanTokenSize`: the size up to which the buffer of
a `bufio.Scanner` grows. -/
def MaxScanTokenSize : Nat := 64 * 1024

/-- The split function `bufio.ScanWords` on buffered data that begin with a
word (the leading spaces are skipped): the token and the data after the space
that ends it.  When no space ends the word, the word is the final token if the
end of the input is reached (`atEOF`), otherwise more data are requested
(`none`). -/
def ScanWords (data : Bytes) (atEOF : Bool) : Option (Bytes × Bytes) :=
  match scanWord data.length [] data with
  | some r => some r
  | none => if atEOF then some (data, []) else none

/-- One call of `Scan` on a word scanner (`ws.Split(bufio.ScanWords)`) whose
unread input is `data`: `none` when `Scan` reports `false`, otherwise the
token (`ws.Text()`) and the unread input left.  The scanner advances over the
leading spaces; with nothing left, `Scan` is `false`.  When what is left is
shorter than the buffer limit, the buffer takes it all and the split function
sees the end of the input.  Otherwise the buffer fills up with the first
`MaxScanTokenSize` bytes: the split function finds the token in them, or
`Scan` gives up (`ErrTooLong`) and reports `false`. -/
def Scan (data : Bytes) : Option (Bytes × Bytes) :=
  match skipSpaces data.length data with
  | [] => none
  | b :: d =>
    if (b :: d).length < MaxScanTokenSize then ScanWords (b :: d) true
    else
      match ScanWords ((b :: d).take MaxScanTokenSize) false with
      | some (tok, rest) => some (tok, rest ++ (b :: d).drop MaxScanTokenSize)
      | none => none

/-- The tokens that at most `fuel` successive calls of `Scan` return. -/
def wordsAux : Nat → Bytes → List Bytes
  | 0, _ => []
  | fuel + 1, data =>
    match Scan data with
    | none => []
    | some (tok, rest) => tok :: wordsAux fuel rest

/-- The tokens of a line: all tokens that the successive calls of `Scan` on
its word scanner return. -/
def words (line : Bytes) : List Bytes := wordsAux (line.length + 1) line

/-- The function `dropCR` of package `bufio`. -/
def dropCR (data : Bytes) : Bytes :=
  if data.getLast? = some 0x0D then data.dropLast else data

/-- The lines a line scanner yields from `data` after the bytes `cur` of the
current line.  A line is complete at a newline or at the end of the input; a
line of `MaxScanTokenSize` bytes or more does not fit the buffer, `Scan` gives
up on it (`ErrTooLong`) and yields neither this line nor any line after it. -/
def scanLinesAux (cur : Bytes) : Bytes → List Bytes
  | [] =>
    if cur = [] then []
    else if MaxScanTokenSize ≤ cur.length then []
    else [dropCR cur]
  | b :: rest =>
    if b = 0x0A then
      if MaxScanTokenSize ≤ cur.length then []
      else dropCR cur :: scanLinesAux [] rest
    else scanLinesAux (cur ++ [b]) rest

/-- The tokens that the calls of `Scan` on a line scanner (`bufio.NewScanner`,
split function `bufio.ScanLines`) yield for the text `data`, until `Scan`
reports `false`: the text is cut at every newline, a carriage return that ends
a line is dropped, a final line without newline counts when it is not empty,
and the scan stops at the first line of `MaxScanTokenSize` bytes or more. -/
def scanLines (data : Bytes) : List Bytes := scanLinesAux [] data

/-- Indexing `s[i]` with a Go `int` index: `none` is the run-time panic. -/
def index (s : Bytes) (i : Int) : Option Nat :=
  if 0 ≤ i ∧ i < s.length then s.get? i.toNat else none

/-! ## The parser -/

/-- ParseOutputLine returns the output parsed from the string. -/
def ParseOutputLine (line : Bytes) : Output × Option Error :=
  match Scan line with
  | none => ({}, some (Error.nameNotFound line))
  | some (name, ws1) =>
    match Scan ws1 with
    | none => ({}, some (Error.stateNotFound line))
    | some (state, _) =>
      if state = ascii "connected" then
        ({ Name := name, Connected := true }, none)
      else if state = ascii "disconnected" then
        ({ Name := name, Connected := false }, none)
      else ({}, some (Error.unknownState state))

/-- ParseModeLine returns the mode parsed from the string. -/
def ParseModeLine (line : Bytes) : Outcome (Mode × Option Error) :=
  if !HasPrefix line (ascii "  ") then Outcome.returned ({}, some Error.ErrNotModeLine)
  else
    match Scan line with
    | none => Outcome.returned ({}, some (Error.modeNameNotFound line))
    | some (name, ws1) =>
      match Scan ws1 with
      | none => Outcome.returned ({}, some (Error.noRefreshRate line))
      | some (rate, ws2) =>
        let mode : Mode := { Name := name }
        match index rate ((rate.length : Int) - 1) with
        | none => Outcome.panicked
        | some c1 =>
          let mode := if c1 = 0x2B then { mode with Default := true } else mode
          match index rate ((rate.length : Int) - 2) with
          | none => Outcome.panicked
          | some c2 =>
            let mode := if c2 = 0x2A then { mode with Active := true } else mode
            let mode :=
              match Scan ws2 with
              | some (t, _) => if t = ascii "+" then { mode with Default := true } else mode
              | none => mode
            Outcome.returned (mode, none)

/-- The states of the parser in `RandrParse`. -/
inductive State where
  | StateStart
  | StateOutput
  | StateMode
deriving DecidableEq, Repr

/-- The local variables of `RandrParse` that live across lines. -/
structure Vars where
  state : State := State.StateStart
  output : Output := {}
  outputs : List Output := []
deriving DecidableEq, Repr

/-- How the handling of one line ends: with `continue nextLine`, with a
`return`, or with a panic. -/
inductive Flow where
  | nextLine (v : Vars)
  | ret (r : List Output × Option Error)
  | panicked
deriving DecidableEq, Repr

/-- The `case StateOutput` of the switch in `RandrParse`. -/
def caseOutput (v : Vars) (line : Bytes) : Flow :=
  match ParseOutputLine line with
  | (_, some err) => Flow.ret ([], some err)
  | (output, none) => Flow.nextLine { v with output := output, state := State.StateMode }

/-- The inner loop `for { switch state { ... } }` of `RandrParse` on one
line.  The only `continue` of the inner loop is taken in `case StateMode`
after `state = StateOutput`, so that the switch runs `case StateOutput` on the
same line next. -/
def dispatch (v : Vars) (line : Bytes) : Flow :=
  match v.state with
  | State.StateStart =>
    if HasPrefix line (ascii "Screen ") then
      Flow.nextLine { v with state := State.StateOutput }
    else Flow.ret ([], some (Error.unexpectedFirstLine line))
  | State.StateOutput => caseOutput v line
  | State.StateMode =>
    match ParseModeLine line with
    | Outcome.panicked => Flow.panicked
    | Outcome.returned (mode, err) =>
      if err = some Error.ErrNotModeLine then
        caseOutput { v with outputs := v.outputs ++ [v.output], output := {},
                            state := State.StateOutput } line
      else
        match err with
        | some e => Flow.ret ([], some e)
        | none =>
          Flow.nextLine
            { v with output := { v.output with Modes := v.output.Modes ++ [mode] } }

/-- The loop `for ls.Scan()` of `RandrParse` over the lines still to come,
followed by the statements after the loop. -/
def loop (v : Vars) : List Bytes → Outcome (List Output × Option Error)
  | [] =>
    Outcome.returned
      (if v.output.Name ≠ [] then v.outputs ++ [v.output] else v.outputs, none)
  | line :: rest =>
    match dispatch v line with
    | Flow.nextLine v1 => loop v1 rest
    | Flow.ret r => Outcome.returned r
    | Flow.panicked => Outcome.panicked

/-- The body of `RandrParse` run on the sequence of lines that `ls.Scan()`
yields before it reports `false`. -/
def RandrParseLines (lines : List Bytes) : Outcome (List Output × Option Error) :=
  loop {} lines

/-- RandrParse returns the list of outputs parsed from the reader.  The
function never reads `ls.Err()`: when the line scanner stops, at the end of the
input or at a line that is too long, the statements after the loop run. -/
def RandrParse (rd : Bytes) : Outcome (List Output × Option Error) :=
  RandrParseLines (scanLines rd)

/-! ## Vocabulary of the statements -/

/-- The text of a document given by its lines: every line is followed by a
newline. -/
def joinLines : List Bytes → Bytes
  | [] => []
  | l :: ls => l ++ 0x0A :: joinLines ls

/-- One step of the tokenisation of a line taken as a whole, without the
buffer of a scanner: the first whitespace-separated token of `data` and what
follows it; `none` when `data` holds white space only. -/
def nextField (data : Bytes) : Option (Bytes × Bytes) :=
  match skipSpaces data.length data with
  | [] => none
  | b :: d => ScanWords (b :: d) true

/-- The tokens that at most `fuel` steps of `nextField` take from `data`. -/
def fieldsAux : Nat → Bytes → List Bytes
  | 0, _ => []
  | fuel + 1, data =>
    match nextField data with
    | none => []
    | some (tok, rest) => tok :: fieldsAux fuel rest

/-- The whitespace-separated tokens of a line, whatever their length.  The
word scanner yields them all when the line is shorter than its buffer limit
(`words_eq_fields`). -/
def fields (line : Bytes) : List Bytes := fieldsAux (line.length + 1) line

/-- The variables of `RandrParse` after its loop has handled `lines` starting
from `v`; `none` when the function has returned or panicked on one of them. -/
def advance (v : Vars) : List Bytes → Option Vars
  | [] => some v
  | line :: rest =>
    match dispatch v line with
    | Flow.nextLine v1 => advance v1 rest
    | Flow.ret _ => none
    | Flow.panicked => none

/-- The lines of a sequence of groups: each group is a header line followed by
its mode lines. -/
def groupLines : List (Bytes × List Bytes) → List Bytes
  | [] => []
  | g :: gs => g.1 :: (g.2 ++ groupLines gs)

/-- The `Mode` that `ParseModeLine` returns for a line. -/
def modeOf (line : Bytes) : Mode :=
  match ParseModeLine line with
  | Outcome.returned (mode, _) => mode
  | Outcome.panicked => {}

/-- The output described by a group: name and connection state as
`ParseOutputLine` returns them for the header, and one mode for each mode
line. -/
def groupOutput (g : Bytes × List Bytes) : Output :=
  { Name := (ParseOutputLine g.1).1.Name, Modes := g.2.map modeOf,
    Connected := (ParseOutputLine g.1).1.Connected }

/-! ## The inner loop of `RandrParse`, pass by pass -/

/-- How one pass through `switch state` ends: with the `continue` of the inner
loop, after which the switch runs again on the same line, or with the end of
the handling of the line. -/
inductive Pass where
  | again (v : Vars)
  | leave (f : Flow)
deriving DecidableEq, Repr

/-- One pass through `switch state` in `RandrParse`.  `case StateStart` calls
no line classifier, `case StateOutput` calls `ParseOutputLine` once and
`case StateMode` calls `ParseModeLine` once. -/
def switchPass (v : Vars) (line : Bytes) : Pass :=
  match v.state with
  | State.StateStart =>
    if HasPrefix line (ascii "Screen ") then
      Pass.leave (Flow.nextLine { v with state := State.StateOutput })
    else Pass.leave (Flow.ret ([], some (Error.unexpectedFirstLine line)))
  | State.StateOutput =>
    match ParseOutputLine line with
    | (_, some err) => Pass.leave (Flow.ret ([], some err))
    | (output, none) =>
      Pass.leave (Flow.nextLine { v with output := output, state := State.StateMode })
  | State.StateMode =>
    match ParseModeLine line with
    | Outcome.panicked => Pass.leave Flow.panicked
    | Outcome.returned (mode, err) =>
      if err = some Error.ErrNotModeLine then
        Pass.again { v with outputs := v.outputs ++ [v.output], output := {},
                            state := State.StateOutput }
      else
        match err with
        | some e => Pass.leave (Flow.ret ([], some e))
        | none =>
          Pass.leave (Flow.nextLine
            { v with output := { v.output with Modes := v.output.Modes ++ [mode] } })

/-- The inner loop `for { switch state { ... } }` on one line, run for at most
`fuel` passes: how the handling of the line ends and the states in which the
switch was entered, in order; `none` when the passes allowed do not suffice. -/
def innerLoop : Nat → Vars → Bytes → Option (Flow × List State)
  | 0, _, _ => none
  | fuel + 1, v, line =>
    match switchPass v line with
    | Pass.leave f => some (f, [v.state])
    | Pass.again v1 =>
      match innerLoop fuel v1 line with
      | some (f, tr) => some (f, v.state :: tr)
      | none => none

/-- The loop `for ls.Scan()` of `RandrParse` with the inner loop run pass by
pass, at most `fuel` passes on each line, followed by the statements after the
loop; `none` when the passes allowed do not suffice on some line. -/
def runLines (fuel : Nat) (v : Vars) :
    List Bytes → Option (Outcome (List Output × Option Error))
  | [] =>
    some (Outcome.returned
      (if v.output.Name ≠ [] then v.outputs ++ [v.output] else v.outputs, none))
  | line :: rest =>
    match innerLoop fuel v line with
    | none => none
    | some (Flow.nextLine v1, _) => runLines fuel v1 rest
    | some (Flow.ret r, _) => some (Outcome.returned r)
    | some (Flow.panicked, _) => some Outcome.panicked

/-- An output as the parser is meant to build them: its name and the names of
its modes are not empty. -/
def namedOutput (o : Output) : Prop :=
  o.Name ≠ [] ∧ ∀ m ∈ o.Modes, m.Name ≠ []

/-- The invariant of the variables of `RandrParse` between two lines: the
outputs collected and the modes of the output under construction are named,
and the output under construction has a name exactly in `StateMode`. -/
def invariant (v : Vars) : Prop :=
  (∀ o ∈ v.outputs, namedOutput o) ∧ (∀ m ∈ v.output.Modes, m.Name ≠ [])
    ∧ (v.state = State.StateMode → v.output.Name ≠ [])
    ∧ (v.state ≠ State.StateMode → v.output.Name = [])

/-! ## The word scanner -/

theorem DecodeRune_width_pos (b : Nat) (t : Bytes) : 1 ≤ (DecodeRune (b :: t)).2 := by
  unfold DecodeRune
  simp only
  generalize (if b < 0xE0 then 2 else if b < 0xF0 then 3 else 4) = sz
  generalize (if b = 0xE0 then 0xA0 else if b = 0xF0 then 0x90 else 0x80) = lo
  generalize (if b = 0xED then 0x9F else if b = 0xF4 then 0x8F else 0xBF) = hi
  rcases t with _ | ⟨b1, _ | ⟨b2, _ | ⟨b3, t3⟩⟩⟩ <;> simp only [] <;> split_ifs <;> simp

theorem DecodeRune_take (n : Nat) (p : Bytes) (hn : 4 ≤ n) :
    DecodeRune (p.take n) = DecodeRune p := by
  obtain ⟨m, rfl⟩ : ∃ m, n = m + 4 := ⟨n - 4, by omega⟩
  rcases p with _ | ⟨a, _ | ⟨b1, _ | ⟨b2, _ | ⟨b3, t⟩⟩⟩⟩
  · rfl
  · rfl
  · rfl
  · rfl
  · simp only [List.take_succ_cons]
    unfold DecodeRune
    simp only
    have hsz : (if a < 0xE0 then 2 else if a < 0xF0 then 3 else 4) ≤ 4 := by
      split_ifs <;> omega
    generalize (if a < 0xE0 then 2 else if a < 0xF0 then 3 else 4) = sz at hsz
    generalize (if a = 0xE0 then 0xA0 else if a = 0xF0 then 0x90 else 0x80) = lo
    generalize (if a = 0xED then 0x9F else if a = 0xF4 then 0x8F else 0xBF) = hi
    have h1 : ¬ (b1 :: b2 :: b3 :: List.take m t).length + 1 < sz := by
      simp only [List.length_cons]; omega
    have h2 : ¬ (b1 :: b2 :: b3 :: t).length + 1 < sz := by
      simp only [List.length_cons]; omega
    rw [if_neg h1, if_neg h2]

theorem DecodeRune_ascii (b : Nat) (t : Bytes) (h : b < 0x80) :
    DecodeRune (b :: t) = (b, 1) := by
  simp [DecodeRune, h]

theorem drop_width_lt (b : Nat) (t : Bytes) :
    ((b :: t).drop (DecodeRune (b :: t)).2).length < (b :: t).length := by
  have h := DecodeRune_width_pos b t
  simp only [List.length_drop, List.length_cons]
  omega

theorem skipSpaces_length_le (f : Nat) (data : Bytes) :
    (skipSpaces f data).length ≤ data.length := by
  induction f generalizing data with
  | zero => simp [skipSpaces]
  | succ f ih =>
    cases data with
    | nil => simp [skipSpaces]
    | cons b t =>
      simp only [skipSpaces]
      split_ifs
      · exact le_trans (ih _) (le_of_lt (drop_width_lt b t))
      · exact le_refl _

theorem scanWord_rest_lt (f : Nat) (tok data : Bytes) {t r : Bytes}
    (h : scanWord f tok data = some (t, r)) : r.length < data.length := by
  induction f generalizing tok data with
  | zero => simp [scanWord] at h
  | succ f ih =>
    cases data with
    | nil => simp [scanWord] at h
    | cons b d =>
      simp only [scanWord] at h
      split_ifs at h
      · simp only [Option.some.injEq, Prod.mk.injEq] at h
        rw [← h.2]
        exact drop_width_lt b d
      · exact lt_trans (ih _ _ h) (drop_width_lt b d)

theorem ScanWords_false (data : Bytes) :
    ScanWords data false = scanWord data.length [] data := by
  unfold ScanWords
  cases scanWord data.length [] data <;> simp

theorem ScanWords_rest_lt {data t r : Bytes} {atEOF : Bool} (hne : data ≠ [])
    (h : ScanWords data atEOF = some (t, r)) : r.length < data.length := by
  unfold ScanWords at h
  cases hs : scanWord data.length [] data with
  | some p =>
    rw [hs] at h
    simp only [Option.some.injEq] at h
    rw [h] at hs
    exact scanWord_rest_lt _ _ _ hs
  | none =>
    rw [hs] at h
    simp only at h
    split_ifs at h
    simp only [Option.some.injEq, Prod.mk.injEq] at h
    rw [← h.2]
    exact List.length_pos.mpr hne

theorem Scan_rest_lt {data tok rest : Bytes} (h : Scan data = some (tok, rest)) :
    rest.length < data.length := by
  unfold Scan at h
  have hle := skipSpaces_length_le data.length data
  split at h
  · exact absurd h (by simp)
  · rename_i b d heq
    rw [heq] at hle
    split_ifs at h with hlen
    · exact lt_of_lt_of_le (ScanWords_rest_lt (by simp) h) hle
    · have hmax : 0 < MaxScanTokenSize := by decide
      cases hw : ScanWords ((b :: d).take MaxScanTokenSize) false with
      | none => rw [hw] at h; simp at h
      | some p =>
        obtain ⟨t, r⟩ := p
        rw [hw] at h
        simp only [Option.some.injEq, Prod.mk.injEq] at h
        have hne : (b :: d).take MaxScanTokenSize ≠ [] := by
          intro hc
          have := congrArg List.length hc
          rw [List.length_take] at this
          simp only [List.length_cons, List.length_nil] at this hlen
          omega
        have hr := ScanWords_rest_lt hne hw
        rw [← h.2, List.length_append, List.length_drop]
        rw [List.length_take] at hr
        omega

theorem wordsAux_fuel (f g : Nat) (data : Bytes) (hf : data.length < f)
    (hg : data.length < g) : wordsAux f data = wordsAux g data := by
  induction f generalizing g data with
  | zero => omega
  | succ f ih =>
    cases g with
    | zero => omega
    | succ g =>
      simp only [wordsAux]
      cases hs : Scan data with
      | none => rfl
      | some p =>
        obtain ⟨tok, rest⟩ := p
        have hlt := Scan_rest_lt hs
        simp only
        rw [ih g rest (by omega) (by omega)]

theorem words_of_Scan_none {line : Bytes} (h : Scan line = none) : words line = [] := by
  simp [words, wordsAux, h]

theorem words_of_Scan_some {line tok rest : Bytes} (h : Scan line = some (tok, rest)) :
    words line = tok :: words rest := by
  have hlt := Scan_rest_lt h
  have h1 : wordsAux (line.length + 1) line = tok :: wordsAux line.length rest := by
    simp only [wordsAux, h]
  unfold words
  rw [h1, wordsAux_fuel line.length (rest.length + 1) rest hlt (by omega)]

theorem Scan_of_words_nil {line : Bytes} (h : words line = []) : Scan line = none := by
  cases hs : Scan line with
  | none => rfl
  | some p =>
    obtain ⟨tok, rest⟩ := p
    rw [words_of_Scan_some hs] at h
    exact absurd h (by simp)

theorem Scan_of_words_cons {line n : Bytes} {ws : List Bytes} (h : words line = n :: ws) :
    ∃ rest, Scan line = some (n, rest) ∧ words rest = ws := by
  cases hs : Scan line with
  | none => rw [words_of_Scan_none hs] at h; exact absurd h (by simp)
  | some p =>
    obtain ⟨tok, rest⟩ := p
    rw [words_of_Scan_some hs] at h
    simp only [List.cons.injEq] at h
    exact ⟨rest, by rw [h.1], h.2⟩

theorem skipSpaces_fuel (f g : Nat) (data : Bytes) (hf : data.length ≤ f)
    (hg : data.length ≤ g) : skipSpaces f data = skipSpaces g data := by
  induction f generalizing g data with
  | zero =>
    have h0 : data = [] := List.length_eq_zero.mp (by omega)
    subst h0
    cases g <;> rfl
  | succ f ih =>
    cases data with
    | nil => cases g <;> rfl
    | cons b t =>
      cases g with
      | zero => simp at hg
      | succ g =>
        have hlt := drop_width_lt b t
        simp only [skipSpaces]
        split_ifs
        · exact ih g _ (by simp only [List.length_cons] at hf hlt; omega)
            (by simp only [List.length_cons] at hg hlt; omega)
        · rfl

theorem scanWord_fuel (f g : Nat) (tok data : Bytes) (hf : data.length ≤ f)
    (hg : data.length ≤ g) : scanWord f tok data = scanWord g tok data := by
  induction f generalizing g tok data with
  | zero =>
    have h0 : data = [] := List.length_eq_zero.mp (by omega)
    subst h0
    cases g <;> rfl
  | succ f ih =>
    cases data with
    | nil => cases g <;> rfl
    | cons b t =>
      cases g with
      | zero => simp at hg
      | succ g =>
        have hlt := drop_width_lt b t
        simp only [scanWord]
        split_ifs
        · rfl
        · exact ih g _ _ (by simp only [List.length_cons] at hf hlt; omega)
            (by simp only [List.length_cons] at hg hlt; omega)

theorem skipSpaces_head (f : Nat) (data : Bytes) (hf : data.length ≤ f) (b : Nat)
    (d : Bytes) (h : skipSpaces f data = b :: d) : isSpace (DecodeRune (b :: d)).1 = false := by
  induction f generalizing data with
  | zero =>
    have h0 : data = [] := List.length_eq_zero.mp (by omega)
    subst h0
    simp [skipSpaces] at h
  | succ f ih =>
    cases data with
    | nil => simp [skipSpaces] at h
    | cons c t =>
      have hlt := drop_width_lt c t
      simp only [skipSpaces] at h
      split_ifs at h with hsp
      · exact ih _ (by simp only [List.length_cons] at hf hlt; omega) h
      · simp only [List.cons.injEq] at h
        rw [← h.1, ← h.2]
        simpa using hsp

theorem scanWord_tok_extends (f : Nat) (tok data : Bytes) {t r : Bytes}
    (h : scanWord f tok data = some (t, r)) : ∃ s, t = tok ++ s := by
  induction f generalizing tok data with
  | zero => simp [scanWord] at h
  | succ f ih =>
    cases data with
    | nil => simp [scanWord] at h
    | cons b d =>
      simp only [scanWord] at h
      split_ifs at h
      · simp only [Option.some.injEq, Prod.mk.injEq] at h
        exact ⟨[], by rw [← h.1, List.append_nil]⟩
      · obtain ⟨s, hs⟩ := ih _ _ h
        exact ⟨(b :: d).take (DecodeRune (b :: d)).2 ++ s, by rw [hs, List.append_assoc]⟩

theorem scanWord_tok_ne_nil (f : Nat) (b : Nat) (d : Bytes) {t r : Bytes}
    (hsp : isSpace (DecodeRune (b :: d)).1 = false)
    (h : scanWord f [] (b :: d) = some (t, r)) : t ≠ [] := by
  cases f with
  | zero => simp [scanWord] at h
  | succ f =>
    simp only [scanWord, hsp, Bool.false_eq_true, if_false, List.nil_append] at h
    obtain ⟨s, hs⟩ := scanWord_tok_extends _ _ _ h
    have hw := DecodeRune_width_pos b d
    obtain ⟨w, hw2⟩ : ∃ w, (DecodeRune (b :: d)).2 = w + 1 :=
      ⟨(DecodeRune (b :: d)).2 - 1, by omega⟩
    rw [hs, hw2]
    simp

theorem Scan_tok_ne_nil {data tok rest : Bytes} (h : Scan data = some (tok, rest)) :
    tok ≠ [] := by
  unfold Scan at h
  split at h
  · exact absurd h (by simp)
  · rename_i b d heq
    have hsp := skipSpaces_head _ _ (le_refl _) b d heq
    split_ifs at h with hlen
    · unfold ScanWords at h
      cases hs : scanWord (b :: d).length [] (b :: d) with
      | some p =>
        rw [hs] at h
        simp only [Option.some.injEq] at h
        rw [h] at hs
        exact scanWord_tok_ne_nil _ b d hsp hs
      | none =>
        rw [hs] at h
        simp only [if_true, Option.some.injEq, Prod.mk.injEq] at h
        rw [← h.1]
        simp
    · rw [ScanWords_false] at h
      cases hs : scanWord ((b :: d).take MaxScanTokenSize).length []
          ((b :: d).take MaxScanTokenSize) with
      | none => rw [hs] at h; simp at h
      | some p =>
        obtain ⟨t, r⟩ := p
        rw [hs] at h
        simp only [Option.some.injEq, Prod.mk.injEq] at h
        rw [← h.1]
        have h4 : 4 ≤ MaxScanTokenSize := by decide
        obtain ⟨n, hn⟩ : ∃ n, MaxScanTokenSize = n + 1 := ⟨MaxScanTokenSize - 1, by omega⟩
        have htake : (b :: d).take MaxScanTokenSize = b :: d.take n := by
          rw [hn, List.take_succ_cons]
        have hsp2 : isSpace (DecodeRune (b :: d.take n)).1 = false := by
          rw [← htake, DecodeRune_take _ _ h4]
          exact hsp
        rw [htake] at hs
        exact scanWord_tok_ne_nil _ b (d.take n) hsp2 hs

/-- A line shorter than the buffer limit is scanned as a whole: the split
function sees the end of the input on every call of `Scan`. -/
theorem Scan_short (data : Bytes) (h : data.length < MaxScanTokenSize) :
    Scan data =
      match skipSpaces data.length data with
      | [] => none
      | b :: d => ScanWords (b :: d) true := by
  unfold Scan
  have hle := skipSpaces_length_le data.length data
  split
  · rfl
  · rename_i b d heq
    rw [heq] at hle
    rw [if_pos (lt_of_le_of_lt hle h)]

/-! ## The scanners on ASCII words and on lines that are too long -/

theorem skipSpaces_spaces (sp rest : Bytes) (f : Nat) (hsp : ∀ x ∈ sp, x = 0x20) :
    skipSpaces (sp.length + f) (sp ++ rest) = skipSpaces f rest := by
  induction sp with
  | nil => simp
  | cons b sp ih =>
    have hb : b = 0x20 := hsp b (List.mem_cons_self _ _)
    subst hb
    have hf : (0x20 :: sp).length + f = (sp.length + f) + 1 := by
      simp only [List.length_cons]; omega
    rw [hf, List.cons_append, skipSpaces]
    simp only [DecodeRune_ascii 0x20 (sp ++ rest) (by decide)]
    rw [if_pos (by decide)]
    exact ih (fun x hx => hsp x (List.mem_cons_of_mem _ hx))

theorem skipSpaces_word (f b : Nat) (t : Bytes) (hb : b < 0x80) (hs : isSpace b = false) :
    skipSpaces (f + 1) (b :: t) = b :: t := by
  rw [skipSpaces]
  simp only [DecodeRune_ascii b t hb, hs, Bool.false_eq_true, if_false]

theorem skipSpaces_spaces_word (sp : Bytes) (b : Nat) (t : Bytes)
    (hsp : ∀ x ∈ sp, x = 0x20) (hb : b < 0x80) (hs : isSpace b = false) :
    skipSpaces (sp ++ b :: t).length (sp ++ b :: t) = b :: t := by
  have hl : (sp ++ b :: t).length = sp.length + (t.length + 1) := by simp
  rw [hl, skipSpaces_spaces sp (b :: t) (t.length + 1) hsp, skipSpaces_word _ b t hb hs]

theorem scanWord_ascii_none (f : Nat) (tok w : Bytes)
    (hw : ∀ x ∈ w, x < 0x80 ∧ isSpace x = false) : scanWord f tok w = none := by
  induction w generalizing f tok with
  | nil => cases f <;> rfl
  | cons b w ih =>
    cases f with
    | zero => rfl
    | succ f =>
      obtain ⟨hb, hs⟩ := hw b (List.mem_cons_self _ _)
      rw [scanWord]
      simp only [DecodeRune_ascii b w hb, hs, Bool.false_eq_true, if_false]
      exact ih f _ (fun x hx => hw x (List.mem_cons_of_mem _ hx))

theorem scanWord_ascii_space (f : Nat) (tok w tail : Bytes)
    (hw : ∀ x ∈ w, x < 0x80 ∧ isSpace x = false) (hf : w.length < f) :
    scanWord f tok (w ++ 0x20 :: tail) = some (tok ++ w, tail) := by
  induction w generalizing f tok with
  | nil =>
    obtain ⟨g, rfl⟩ : ∃ g, f = g + 1 := ⟨f - 1, by simp at hf; omega⟩
    rw [List.nil_append, scanWord]
    simp only [DecodeRune_ascii 0x20 tail (by decide)]
    rw [if_pos (by decide)]
    simp
  | cons b w ih =>
    obtain ⟨g, rfl⟩ : ∃ g, f = g + 1 := ⟨f - 1, by simp at hf; omega⟩
    obtain ⟨hb, hs⟩ := hw b (List.mem_cons_self _ _)
    rw [List.cons_append, scanWord]
    simp only [DecodeRune_ascii b (w ++ 0x20 :: tail) hb, hs, Bool.false_eq_true, if_false]
    rw [List.take_succ_cons, List.take_zero, List.drop_succ_cons, List.drop_zero]
    rw [ih g (tok ++ [b]) (fun x hx => hw x (List.mem_cons_of_mem _ hx))
      (by simp only [List.length_cons] at hf; omega)]
    simp

/-- A word of ASCII bytes that is shorter than the buffer limit and is ended
by a space is the token of the next `Scan`, whatever follows the space. -/
theorem Scan_ascii_word (sp w tail : Bytes) (hsp : ∀ x ∈ sp, x = 0x20)
    (hw : ∀ x ∈ w, x < 0x80 ∧ isSpace x = false) (hne : w ≠ [])
    (hlen : w.length < MaxScanTokenSize) :
    Scan (sp ++ (w ++ 0x20 :: tail)) = some (w, tail) := by
  obtain ⟨b, w1, rfl⟩ : ∃ b w1, w = b :: w1 := by
    cases w with
    | nil => exact absurd rfl hne
    | cons b w1 => exact ⟨b, w1, rfl⟩
  obtain ⟨hb, hs⟩ := hw b (List.mem_cons_self _ _)
  unfold Scan
  rw [List.cons_append, skipSpaces_spaces_word sp b _ hsp hb hs]
  simp only
  split_ifs with hl
  · unfold ScanWords
    rw [← List.cons_append, scanWord_ascii_space _ [] (b :: w1) tail hw (by simp)]
    simp
  · rw [ScanWords_false, ← List.cons_append]
    have hl2 : MaxScanTokenSize ≤ (b :: w1 ++ 0x20 :: tail).length := by
      rw [← List.cons_append] at hl
      omega
    obtain ⟨k, hk⟩ : ∃ k, MaxScanTokenSize - (b :: w1).length = k + 1 :=
      ⟨MaxScanTokenSize - (b :: w1).length - 1, by omega⟩
    have htake : (b :: w1 ++ 0x20 :: tail).take MaxScanTokenSize
        = b :: w1 ++ 0x20 :: tail.take k := by
      rw [List.take_append_eq_append_take, List.take_of_length_le (le_of_lt hlen), hk,
        List.take_succ_cons]
    have hdrop : (b :: w1 ++ 0x20 :: tail).drop MaxScanTokenSize = tail.drop k := by
      rw [List.drop_append_eq_append_drop, List.drop_of_length_le (le_of_lt hlen), hk,
        List.drop_succ_cons, List.nil_append]
    rw [htake, hdrop, scanWord_ascii_space _ [] (b :: w1) _ hw (by simp)]
    simp only [List.nil_append, List.take_append_drop]

/-- A word of ASCII bytes that does not fit the buffer makes `Scan` report
`false`, whatever follows the word. -/
theorem Scan_ascii_long (sp w tail : Bytes) (hsp : ∀ x ∈ sp, x = 0x20)
    (hw : ∀ x ∈ w, x < 0x80 ∧ isSpace x = false)
    (hlen : MaxScanTokenSize ≤ w.length) :
    Scan (sp ++ (w ++ tail)) = none := by
  have hmax : 0 < MaxScanTokenSize := by decide
  obtain ⟨b, w1, rfl⟩ : ∃ b w1, w = b :: w1 := by
    cases w with
    | nil => simp at hlen; omega
    | cons b w1 => exact ⟨b, w1, rfl⟩
  obtain ⟨hb, hs⟩ := hw b (List.mem_cons_self _ _)
  unfold Scan
  rw [List.cons_append, skipSpaces_spaces_word sp b _ hsp hb hs]
  simp only
  rw [if_neg (by simp only [List.length_cons, List.length_append] at hlen ⊢; omega),
    ScanWords_false, ← List.cons_append, List.take_append_of_le_length hlen,
    scanWord_ascii_none _ [] _ (fun x hx => hw x (List.mem_of_mem_take hx))]

/-! ## The line scanner -/

theorem scanLinesAux_segment (cur seg rest : Bytes) (hseg : ∀ x ∈ seg, x ≠ 0x0A) :
    scanLinesAux cur (seg ++ rest) = scanLinesAux (cur ++ seg) rest := by
  induction seg generalizing cur with
  | nil => simp
  | cons b seg ih =>
    rw [List.cons_append, scanLinesAux, if_neg (hseg b (List.mem_cons_self _ _)),
      ih _ (fun x hx => hseg x (List.mem_cons_of_mem _ hx))]
    simp

/-- A line shorter than the buffer limit and ended by a newline is yielded,
and the scan goes on after the newline. -/
theorem scanLines_line (l rest : Bytes) (hl : ∀ x ∈ l, x ≠ 0x0A)
    (hlen : l.length < MaxScanTokenSize) :
    scanLines (l ++ 0x0A :: rest) = dropCR l :: scanLines rest := by
  unfold scanLines
  rw [scanLinesAux_segment [] l _ hl, List.nil_append, scanLinesAux, if_pos rfl,
    if_neg (by omega)]

/-- A last line without newline is yielded when it is not empty and is shorter
than the buffer limit. -/
theorem scanLines_last (l : Bytes) (hl : ∀ x ∈ l, x ≠ 0x0A) (hne : l ≠ [])
    (hlen : l.length < MaxScanTokenSize) : scanLines l = [dropCR l] := by
  unfold scanLines
  have := scanLinesAux_segment [] l [] hl
  rw [List.append_nil, List.nil_append] at this
  rw [this, scanLinesAux, if_neg hne, if_neg (by omega)]

/-- At a line that does not fit the buffer the scan stops: neither the line
nor what follows it is yielded. -/
theorem scanLines_too_long (l tail : Bytes) (hl : ∀ x ∈ l, x ≠ 0x0A)
    (hlen : MaxScanTokenSize ≤ l.length) (ht : tail = [] ∨ ∃ rest, tail = 0x0A :: rest) :
    scanLines (l ++ tail) = [] := by
  have hmax : 0 < MaxScanTokenSize := by decide
  unfold scanLines
  rw [scanLinesAux_segment [] l _ hl, List.nil_append]
  rcases ht with rfl | ⟨rest, rfl⟩
  · rw [scanLinesAux, if_neg (by intro hc; rw [hc] at hlen; simp at hlen; omega), if_pos hlen]
  · rw [scanLinesAux, if_pos rfl, if_pos hlen]

/-! ## The tokens of a line and the tokens the word scanner yields -/

theorem nextField_rest_lt {data tok rest : Bytes} (h : nextField data = some (tok, rest)) :
    rest.length < data.length := by
  unfold nextField at h
  have hle := skipSpaces_length_le data.length data
  split at h
  · exact absurd h (by simp)
  · rename_i b d heq
    rw [heq] at hle
    exact lt_of_lt_of_le (ScanWords_rest_lt (by simp) h) hle

theorem fieldsAux_fuel (f g : Nat) (data : Bytes) (hf : data.length < f)
    (hg : data.length < g) : fieldsAux f data = fieldsAux g data := by
  induction f generalizing g data with
  | zero => omega
  | succ f ih =>
    cases g with
    | zero => omega
    | succ g =>
      simp only [fieldsAux]
      cases hs : nextField data with
      | none => rfl
      | some p =>
        obtain ⟨tok, rest⟩ := p
        have hlt := nextField_rest_lt hs
        simp only
        rw [ih g rest (by omega) (by omega)]

theorem fields_of_nextField_none {line : Bytes} (h : nextField line = none) :
    fields line = [] := by
  simp [fields, fieldsAux, h]

theorem fields_of_nextField_some {line tok rest : Bytes}
    (h : nextField line = some (tok, rest)) : fields line = tok :: fields rest := by
  have hlt := nextField_rest_lt h
  have h1 : fieldsAux (line.length + 1) line = tok :: fieldsAux line.length rest := by
    simp only [fieldsAux, h]
  unfold fields
  rw [h1, fieldsAux_fuel line.length (rest.length + 1) rest hlt (by omega)]

theorem Scan_eq_nextField (data : Bytes) (h : data.length < MaxScanTokenSize) :
    Scan data = nextField data := by
  rw [Scan_short data h]
  rfl

theorem words_eq_fields_aux (n : Nat) :
    ∀ line : Bytes, line.length ≤ n → line.length < MaxScanTokenSize →
      words line = fields line := by
  induction n with
  | zero =>
    intro line hl _
    have h0 : line = [] := List.length_eq_zero.mp (by omega)
    subst h0
    decide
  | succ n ih =>
    intro line hl h
    cases hs : nextField line with
    | none =>
      rw [fields_of_nextField_none hs]
      rw [← Scan_eq_nextField line h] at hs
      exact words_of_Scan_none hs
    | some p =>
      obtain ⟨tok, rest⟩ := p
      have hlt := nextField_rest_lt hs
      rw [fields_of_nextField_some hs]
      rw [← Scan_eq_nextField line h] at hs
      rw [words_of_Scan_some hs, ih rest (by omega) (by omega)]

/-- The word scanner yields all the whitespace-separated tokens of a line that
is shorter than its buffer limit. -/
theorem words_eq_fields (line : Bytes) (h : line.length < MaxScanTokenSize) :
    words line = fields line :=
  words_eq_fields_aux line.length line (le_refl _) h

theorem dropCR_length_le (cur : Bytes) : (dropCR cur).length ≤ cur.length := by
  unfold dropCR
  split_ifs
  · simp
  · exact le_refl _

theorem scanLinesAux_length_lt (cur data : Bytes) :
    ∀ l ∈ scanLinesAux cur data, l.length < MaxScanTokenSize := by
  induction data generalizing cur with
  | nil =>
    intro l hl
    simp only [scanLinesAux] at hl
    split_ifs at hl with h1 h2
    · simp at hl
    · simp at hl
    · simp only [List.mem_singleton] at hl
      rw [hl]
      exact lt_of_le_of_lt (dropCR_length_le cur) (by omega)
  | cons b t ih =>
    intro l hl
    simp only [scanLinesAux] at hl
    split_ifs at hl with h1 h2
    · simp at hl
    · rcases List.mem_cons.1 hl with hl | hl
      · rw [hl]
        exact lt_of_le_of_lt (dropCR_length_le cur) (by omega)
      · exact ih [] l hl
    · exact ih _ l hl

/-- Every line that the line scanner yields is shorter than the buffer limit,
so that the word scanner of `ParseOutputLine` and `ParseModeLine` yields all
its tokens. -/
theorem scanLines_words (rd : Bytes) : ∀ l ∈ scanLines rd, words l = fields l :=
  fun l hl => words_eq_fields l (scanLinesAux_length_lt [] rd l hl)

theorem nextField_ascii_word (sp w tail : Bytes) (hsp : ∀ x ∈ sp, x = 0x20)
    (hw : ∀ x ∈ w, x < 0x80 ∧ isSpace x = false) (hne : w ≠ []) :
    nextField (sp ++ (w ++ 0x20 :: tail)) = some (w, tail) := by
  obtain ⟨b, w1, rfl⟩ : ∃ b w1, w = b :: w1 := by
    cases w with
    | nil => exact absurd rfl hne
    | cons b w1 => exact ⟨b, w1, rfl⟩
  obtain ⟨hb, hs⟩ := hw b (List.mem_cons_self _ _)
  unfold nextField
  rw [List.cons_append, skipSpaces_spaces_word sp b _ hsp hb hs]
  simp only
  unfold ScanWords
  rw [← List.cons_append, scanWord_ascii_space _ [] (b :: w1) tail hw (by simp)]
  simp

theorem nextField_ascii_last (sp w : Bytes) (hsp : ∀ x ∈ sp, x = 0x20)
    (hw : ∀ x ∈ w, x < 0x80 ∧ isSpace x = false) (hne : w ≠ []) :
    nextField (sp ++ w) = some (w, []) := by
  obtain ⟨b, w1, rfl⟩ : ∃ b w1, w = b :: w1 := by
    cases w with
    | nil => exact absurd rfl hne
    | cons b w1 => exact ⟨b, w1, rfl⟩
  obtain ⟨hb, hs⟩ := hw b (List.mem_cons_self _ _)
  unfold nextField
  rw [skipSpaces_spaces_word sp b _ hsp hb hs]
  simp only
  unfold ScanWords
  rw [scanWord_ascii_none _ [] (b :: w1) hw]
  simp

theorem fields_nil : fields [] = [] := by decide

/-- The tokens of a line made of two words of ASCII bytes. -/
theorem fields_two_words (sp w1 w2 : Bytes) (hsp : ∀ x ∈ sp, x = 0x20)
    (h1 : ∀ x ∈ w1, x < 0x80 ∧ isSpace x = false) (hne1 : w1 ≠ [])
    (h2 : ∀ x ∈ w2, x < 0x80 ∧ isSpace x = false) (hne2 : w2 ≠ []) :
    fields (sp ++ (w1 ++ 0x20 :: w2)) = [w1, w2] := by
  have e2 := nextField_ascii_last [] w2 (by simp) h2 hne2
  rw [List.nil_append] at e2
  rw [fields_of_nextField_some (nextField_ascii_word sp w1 w2 hsp h1 hne1),
    fields_of_nextField_some e2, fields_nil]

theorem dropCR_id (l : Bytes) (h : l.getLast? ≠ some 0x0D) : dropCR l = l := by
  unfold dropCR
  rw [if_neg h]

/-- The line scanner yields all the lines of a document whose lines are
shorter than the buffer limit (the lines hold no newline and do not end in a
carriage return, which the scanner drops). -/
theorem scanLines_joinLines (lines : List Bytes)
    (h : ∀ l ∈ lines, (∀ x ∈ l, x ≠ 0x0A) ∧ l.getLast? ≠ some 0x0D
      ∧ l.length < MaxScanTokenSize) :
    scanLines (joinLines lines) = lines := by
  induction lines with
  | nil => rfl
  | cons l ls ih =>
    obtain ⟨h1, h2, h3⟩ := h l (List.mem_cons_self _ _)
    rw [joinLines, scanLines_line l _ h1 h3, dropCR_id l h2,
      ih (fun x hx => h x (List.mem_cons_of_mem _ hx))]

/-! ## The line classifiers in terms of the tokens of the line -/

theorem ParseOutputLine_words (line : Bytes) :
    ParseOutputLine line =
      match words line with
      | [] => ({}, some (Error.nameNotFound line))
      | [_] => ({}, some (Error.stateNotFound line))
      | name :: state :: _ =>
        if state = ascii "connected" then ({ Name := name, Connected := true }, none)
        else if state = ascii "disconnected" then ({ Name := name, Connected := false }, none)
        else ({}, some (Error.unknownState state)) := by
  cases h1 : Scan line with
  | none => simp only [ParseOutputLine, h1, words_of_Scan_none h1]
  | some p1 =>
    obtain ⟨name, ws1⟩ := p1
    cases h2 : Scan ws1 with
    | none =>
      simp only [ParseOutputLine, h1, h2, words_of_Scan_some h1, words_of_Scan_none h2]
    | some p2 =>
      obtain ⟨state, ws2⟩ := p2
      simp only [ParseOutputLine, h1, h2, words_of_Scan_some h1, words_of_Scan_some h2]

theorem ParseModeLine_words (line : Bytes) :
    ParseModeLine line =
      if !HasPrefix line (ascii "  ") then Outcome.returned ({}, some Error.ErrNotModeLine)
      else
        match words line with
        | [] => Outcome.returned ({}, some (Error.modeNameNotFound line))
        | [_] => Outcome.returned ({}, some (Error.noRefreshRate line))
        | name :: rate :: more =>
          match index rate ((rate.length : Int) - 1), index rate ((rate.length : Int) - 2) with
          | some c1, some c2 =>
            Outcome.returned
              ({ Name := name,
                 Default := decide (c1 = 0x2B) || decide (more.head? = some (ascii "+")),
                 Active := decide (c2 = 0x2A) }, none)
          | _, _ => Outcome.panicked := by
  by_cases hp : HasPrefix line (ascii "  ") = true
  swap
  · simp [ParseModeLine, hp]
  cases h1 : Scan line with
  | none => simp [ParseModeLine, hp, h1, words_of_Scan_none h1]
  | some p1 =>
    obtain ⟨name, ws1⟩ := p1
    cases h2 : Scan ws1 with
    | none => simp [ParseModeLine, hp, h1, h2, words_of_Scan_some h1, words_of_Scan_none h2]
    | some p2 =>
      obtain ⟨rate, ws2⟩ := p2
      cases hc1 : index rate ((rate.length : Int) - 1) with
      | none =>
        simp [ParseModeLine, hp, h1, h2, words_of_Scan_some h1, words_of_Scan_some h2, hc1]
      | some c1 =>
        cases hc2 : index rate ((rate.length : Int) - 2) with
        | none =>
          simp [ParseModeLine, hp, h1, h2, words_of_Scan_some h1, words_of_Scan_some h2, hc1,
            hc2]
        | some c2 =>
          cases h3 : Scan ws2 with
          | none =>
            by_cases e1 : c1 = 0x2B <;> by_cases e2 : c2 = 0x2A <;>
              simp [ParseModeLine, hp, h1, h2, words_of_Scan_some h1, words_of_Scan_some h2,
                hc1, hc2, h3, words_of_Scan_none h3, e1, e2]
          | some p3 =>
            obtain ⟨t, ws3⟩ := p3
            by_cases e1 : c1 = 0x2B <;> by_cases e2 : c2 = 0x2A <;>
              by_cases e3 : t = ascii "+" <;>
              simp [ParseModeLine, hp, h1, h2, words_of_Scan_some h1, words_of_Scan_some h2,
                hc1, hc2, h3, words_of_Scan_some h3, e1, e2, e3]

/-! ## The state machine of `RandrParse` -/

theorem ParseOutputLine_ok_name {line : Bytes} (h : (ParseOutputLine line).2 = none) :
    (ParseOutputLine line).1.Name ≠ [] ∧ (ParseOutputLine line).1.Modes = [] := by
  unfold ParseOutputLine at h ⊢
  cases h1 : Scan line with
  | none => simp [h1] at h
  | some p1 =>
    obtain ⟨name, ws1⟩ := p1
    have hne := Scan_tok_ne_nil h1
    cases h2 : Scan ws1 with
    | none => simp [h1, h2] at h
    | some p2 =>
      obtain ⟨state, ws2⟩ := p2
      simp only [h1, h2] at h ⊢
      split_ifs at h ⊢ with c1 c2
      all_goals exact ⟨hne, rfl⟩

theorem caseOutput_ok (v : Vars) {line : Bytes} (h : (ParseOutputLine line).2 = none) :
    caseOutput v line =
      Flow.nextLine { v with output := (ParseOutputLine line).1, state := State.StateMode } := by
  unfold caseOutput
  rcases hp : ParseOutputLine line with ⟨o, e⟩
  rw [hp] at h
  simp only at h
  subst h
  rfl

theorem caseOutput_err (v : Vars) {line : Bytes} {e : Error}
    (h : (ParseOutputLine line).2 = some e) : caseOutput v line = Flow.ret ([], some e) := by
  unfold caseOutput
  rcases hp : ParseOutputLine line with ⟨o, e1⟩
  rw [hp] at h
  simp only at h
  subst h
  rfl

theorem caseOutput_cases (v : Vars) (line : Bytes) :
    (∃ e, caseOutput v line = Flow.ret ([], some e))
      ∨ caseOutput v line =
        Flow.nextLine { v with output := (ParseOutputLine line).1, state := State.StateMode } := by
  cases h : (ParseOutputLine line).2 with
  | none => exact Or.inr (caseOutput_ok v h)
  | some e => exact Or.inl ⟨e, caseOutput_err v h⟩

theorem dispatch_ret {v : Vars} {line : Bytes} {r : List Output × Option Error}
    (h : dispatch v line = Flow.ret r) : ∃ e, r = ([], some e) := by
  have hco : ∀ w : Vars, caseOutput w line = Flow.ret r → ∃ e, r = ([], some e) := by
    intro w hw
    rcases caseOutput_cases w line with ⟨e, he⟩ | he
    · rw [he] at hw
      exact ⟨e, (Flow.ret.inj hw).symm⟩
    · rw [he] at hw
      exact absurd hw (by simp)
  unfold dispatch at h
  split at h
  · split_ifs at h
    exact ⟨_, (Flow.ret.inj h).symm⟩
  · exact hco _ h
  · split at h
    · exact absurd h (by simp)
    · split_ifs at h
      · exact hco _ h
      · split at h
        · exact ⟨_, (Flow.ret.inj h).symm⟩
        · exact absurd h (by simp)

theorem loop_append (v : Vars) (P rest : List Bytes) :
    loop v (P ++ rest) =
      match advance v P with
      | some v1 => loop v1 rest
      | none => loop v P := by
  induction P generalizing v with
  | nil => simp [advance]
  | cons l P ih =>
    simp only [List.cons_append, loop, advance]
    cases hd : dispatch v l with
    | nextLine v1 => simp only; exact ih v1
    | ret r => rfl
    | panicked => rfl

theorem advance_of_loop_ok {v : Vars} {P : List Bytes} {R : List Output}
    (h : loop v P = Outcome.returned (R, none)) : ∃ v1, advance v P = some v1 := by
  induction P generalizing v with
  | nil => exact ⟨v, rfl⟩
  | cons l P ih =>
    simp only [loop, advance] at h ⊢
    cases hd : dispatch v l with
    | nextLine v1 =>
      rw [hd] at h
      exact ih h
    | ret r =>
      rw [hd] at h
      obtain ⟨e, he⟩ := dispatch_ret hd
      simp [he] at h
    | panicked =>
      rw [hd] at h
      simp at h

theorem dispatch_mode_ok (v : Vars) {line : Bytes} {mode : Mode}
    (hs : v.state = State.StateMode)
    (h : ParseModeLine line = Outcome.returned (mode, none)) :
    dispatch v line =
      Flow.nextLine
        { v with output := { v.output with Modes := v.output.Modes ++ [mode] } } := by
  unfold dispatch
  rw [hs]
  simp [h]

theorem dispatch_header_output (v : Vars) {line : Bytes}
    (hs : v.state = State.StateOutput) (h : (ParseOutputLine line).2 = none) :
    dispatch v line =
      Flow.nextLine { v with output := (ParseOutputLine line).1, state := State.StateMode } := by
  unfold dispatch
  rw [hs]
  exact caseOutput_ok v h

theorem ParseModeLine_no_indent {line : Bytes} (h : HasPrefix line (ascii "  ") = false) :
    ParseModeLine line = Outcome.returned ({}, some Error.ErrNotModeLine) := by
  simp [ParseModeLine, h]

theorem dispatch_mode_redispatch (v : Vars) {line : Bytes}
    (hs : v.state = State.StateMode) (h : HasPrefix line (ascii "  ") = false) :
    dispatch v line =
      caseOutput { v with outputs := v.outputs ++ [v.output], output := {},
                          state := State.StateOutput } line := by
  unfold dispatch
  rw [hs]
  simp [ParseModeLine_no_indent h]

theorem loop_modes (v : Vars) (ms rest : List Bytes) (hs : v.state = State.StateMode)
    (hms : ∀ m ∈ ms, ∃ mode, ParseModeLine m = Outcome.returned (mode, none)) :
    loop v (ms ++ rest) =
      loop { v with output := { v.output with Modes := v.output.Modes ++ ms.map modeOf } }
        rest := by
  induction ms generalizing v with
  | nil => simp
  | cons m ms ih =>
    obtain ⟨mode, hm⟩ := hms m (List.mem_cons_self _ _)
    have hmo : modeOf m = mode := by simp [modeOf, hm]
    rw [List.cons_append, loop, dispatch_mode_ok v hs hm]
    simp only
    rw [ih { v with output := { v.output with Modes := v.output.Modes ++ [mode] } } hs
      (fun x hx => hms x (List.mem_cons_of_mem _ hx))]
    simp [hmo]

theorem loop_groups (v : Vars) (groups : List (Bytes × List Bytes))
    (hs : v.state = State.StateMode) (hname : v.output.Name ≠ [])
    (hhdr : ∀ g ∈ groups,
      (ParseOutputLine g.1).2 = none ∧ HasPrefix g.1 (ascii "  ") = false)
    (hmode : ∀ g ∈ groups, ∀ m ∈ g.2,
      ∃ mode, ParseModeLine m = Outcome.returned (mode, none)) :
    loop v (groupLines groups) =
      Outcome.returned (v.outputs ++ v.output :: groups.map groupOutput, none) := by
  induction groups generalizing v with
  | nil => simp [groupLines, loop, hname]
  | cons g gs ih =>
    obtain ⟨hacc, hnp⟩ := hhdr g (List.mem_cons_self _ _)
    obtain ⟨hn, hm⟩ := ParseOutputLine_ok_name hacc
    rw [groupLines, loop, dispatch_mode_redispatch v hs hnp, caseOutput_ok _ hacc]
    simp only
    rw [loop_modes _ _ _ rfl (hmode g (List.mem_cons_self _ _))]
    rw [ih _ rfl hn (fun x hx => hhdr x (List.mem_cons_of_mem _ hx))
      (fun x hx => hmode x (List.mem_cons_of_mem _ hx))]
    simp [groupOutput, hm]

theorem index_last (s : Bytes) (k : Nat) (hk : 1 ≤ k) (hs : k ≤ s.length) :
    index s ((s.length : Int) - (k : Int)) = s[s.length - k]? := by
  unfold index
  have h1 : (0 : Int) ≤ (s.length : Int) - (k : Int) ∧
      (s.length : Int) - (k : Int) < (s.length : Int) := by omega
  have h2 : ((s.length : Int) - (k : Int)).toNat = s.length - k := by omega
  rw [if_pos h1, h2]
  simp

theorem index_short (s : Bytes) (k : Nat) (hs : s.length < k) :
    index s ((s.length : Int) - (k : Int)) = none := by
  unfold index
  rw [if_neg (by omega)]

/-- C2, amended: a line from which the word scanner yields the first token
`name` and a second token that is exactly `connected` or `disconnected` is
accepted by `ParseOutputLine`, which returns the output with that name,
`Connected` true exactly for `connected`, and no modes; every other line with
the same first two tokens (other leading white space, other further tokens)
gives the same result.  The word scanner yields the tokens of a line shorter
than 65536 bytes in full; on a longer line it stops at a token that does not
fit its buffer. -/
theorem ParseOutputLine_header (line name state : Bytes) (more : List Bytes)
    (hw : words line = name :: state :: more)
    (hs : state = ascii "connected" ∨ state = ascii "disconnected") :
    ParseOutputLine line =
        ({ Name := name, Modes := [], Connected := decide (state = ascii "connected") }, none)
      ∧ ∀ line2, (words line2).take 2 = [name, state] →
          ParseOutputLine line2 = ParseOutputLine line := by
  have key : ∀ l m, words l = name :: state :: m → ParseOutputLine l =
      ({ Name := name, Modes := [], Connected := decide (state = ascii "connected") }, none) := by
    intro l m hl
    rw [ParseOutputLine_words, hl]
    rcases hs with hs | hs
    · simp [hs]
    · subst hs
      have hne : ascii "disconnected" ≠ ascii "connected" := by decide
      simp [hne]
  refine ⟨key line more hw, ?_⟩
  intro line2 h2
  have : ∃ m, words line2 = name :: state :: m := by
    rcases hw2 : words line2 with _ | ⟨a, _ | ⟨b, m⟩⟩
    · rw [hw2] at h2; simp at h2
    · rw [hw2] at h2; simp at h2
    · rw [hw2] at h2
      simp at h2
      exact ⟨m, by rw [h2.1, h2.2]⟩
  obtain ⟨m, hm⟩ := this
  rw [key line2 m hm, key line more hw]

/-- C3, amended: flag decoding.  For a line that begins with two spaces and
from which the word scanner yields at least two tokens, the second (the rate
token) being at least two bytes long, `ParseModeLine` returns without error
the mode named by the first token, with `Default` true exactly when the last
byte of the rate token is `+` or the scanner yields a third token that is
exactly `+`, and `Active` true exactly when the second-to-last byte of the
rate token is `*`; the tokens after the third do not occur in the result.  The
word scanner yields the tokens of a line shorter than 65536 bytes in full; on
a longer line it stops at a token that does not fit its buffer. -/
theorem ParseModeLine_flags (line name rate : Bytes) (more : List Bytes)
    (hp : HasPrefix line (ascii "  ") = true)
    (hw : words line = name :: rate :: more)
    (hlen : 2 ≤ rate.length) :
    ParseModeLine line =
        Outcome.returned
          ({ Name := name,
             Default := decide (rate[rate.length - 1]? = some 0x2B)
               || decide (more.head? = some (ascii "+")),
             Active := decide (rate[rate.length - 2]? = some 0x2A) }, none)
      ∧ ∀ line2 more2, HasPrefix line2 (ascii "  ") = true →
          words line2 = name :: rate :: more2 → more2.head? = more.head? →
          ParseModeLine line2 = ParseModeLine line := by
  have key : ∀ l m, HasPrefix l (ascii "  ") = true → words l = name :: rate :: m →
      ParseModeLine l =
        Outcome.returned
          ({ Name := name,
             Default := decide (rate[rate.length - 1]? = some 0x2B)
               || decide (m.head? = some (ascii "+")),
             Active := decide (rate[rate.length - 2]? = some 0x2A) }, none) := by
    intro l m hl hm
    rw [ParseModeLine_words, hm]
    have i1 := index_last rate 1 (le_refl _) (by omega)
    have i2 := index_last rate 2 (by omega) hlen
    simp only [Nat.cast_one, Nat.cast_ofNat] at i1 i2
    have g1 : ∃ c1, rate[rate.length - 1]? = some c1 :=
      ⟨rate[rate.length - 1], List.getElem?_eq_getElem (by omega)⟩
    have g2 : ∃ c2, rate[rate.length - 2]? = some c2 :=
      ⟨rate[rate.length - 2], List.getElem?_eq_getElem (by omega)⟩
    obtain ⟨c1, h1⟩ := g1
    obtain ⟨c2, h2⟩ := g2
    simp [hl, i1, i2, h1, h2]
  refine ⟨key line more hp hw, ?_⟩
  intro line2 more2 hp2 hw2 hh
  rw [key line2 more2 hp2 hw2, key line more hp hw, hh]

theorem ParseOutputLine_header_witness :
    words (ascii "eDP-1 connected primary 1920x1080+0+0")
        = [ascii "eDP-1", ascii "connected", ascii "primary", ascii "1920x1080+0+0"]
      ∧ ParseOutputLine (ascii "eDP-1 connected primary 1920x1080+0+0")
        = ({ Name := ascii "eDP-1", Modes := [], Connected := true }, none)
      ∧ ParseOutputLine (ascii "\t eDP-1   connected")
        = ParseOutputLine (ascii "eDP-1 connected primary 1920x1080+0+0") :=
  ⟨by decide,
   (ParseOutputLine_header (ascii "eDP-1 connected primary 1920x1080+0+0") (ascii "eDP-1")
      (ascii "connected") [ascii "primary", ascii "1920x1080+0+0"] (by decide)
      (Or.inl rfl)).1,
   (ParseOutputLine_header (ascii "eDP-1 connected primary 1920x1080+0+0") (ascii "eDP-1")
      (ascii "connected") [ascii "primary", ascii "1920x1080+0+0"] (by decide)
      (Or.inl rfl)).2 (ascii "\t eDP-1   connected") (by decide)⟩

theorem ParseModeLine_flags_witness :
    ParseModeLine (ascii "  1920x1080 59.94")
        = Outcome.returned ({ Name := ascii "1920x1080", Default := false, Active := false }, none)
      ∧ ParseModeLine (ascii "  1920x1080 60.00+")
        = Outcome.returned ({ Name := ascii "1920x1080", Default := true, Active := false }, none)
      ∧ ParseModeLine (ascii "  1920x1080 60.00*+")
        = Outcome.returned ({ Name := ascii "1920x1080", Default := true, Active := true }, none)
      ∧ ParseModeLine (ascii "  1920x1080 60.00 +")
        = Outcome.returned ({ Name := ascii "1920x1080", Default := true, Active := false }, none)
      ∧ ParseModeLine (ascii "   1920x1080   60.00 + 59.93")
        = ParseModeLine (ascii "  1920x1080 60.00 +") :=
  ⟨(ParseModeLine_flags (ascii "  1920x1080 59.94") (ascii "1920x1080") (ascii "59.94") []
      (by decide) (by decide) (by decide)).1.trans (by decide),
   (ParseModeLine_flags (ascii "  1920x1080 60.00+") (ascii "1920x1080") (ascii "60.00+") []
      (by decide) (by decide) (by decide)).1.trans (by decide),
   (ParseModeLine_flags (ascii "  1920x1080 60.00*+") (ascii "1920x1080") (ascii "60.00*+") []
      (by decide) (by decide) (by decide)).1.trans (by decide),
   (ParseModeLine_flags (ascii "  1920x1080 60.00 +") (ascii "1920x1080") (ascii "60.00")
      [ascii "+"] (by decide) (by decide) (by decide)).1.trans (by decide),
   (ParseModeLine_flags (ascii "  1920x1080 60.00 +") (ascii "1920x1080") (ascii "60.00")
      [ascii "+"] (by decide) (by decide) (by decide)).2 (ascii "   1920x1080   60.00 + 59.93")
      [ascii "+", ascii "59.93"] (by decide) (by decide) (by decide)⟩

/-- C4: on the line `  1920x1080 60.00*` (two tokens, rate token ending in the
active marker with no `+` after it) `ParseModeLine` returns a mode with
`Active` false: it compares the second-to-last byte of the rate token, `0`,
with `*`. -/
theorem ParseModeLine_active_alone_missed :
    ParseModeLine (ascii "  1920x1080 60.00*")
      = Outcome.returned ({ Name := ascii "1920x1080", Default := false, Active := false },
          none) := by
  decide

/-- A rate token of a single byte makes `ParseModeLine` panic: the index
`len(rate)-2` is negative. -/
theorem ParseModeLine_short_rate (line name rate : Bytes) (more : List Bytes)
    (hp : HasPrefix line (ascii "  ") = true)
    (hw : words line = name :: rate :: more)
    (hlen : rate.length = 1) :
    ParseModeLine line = Outcome.panicked := by
  rw [ParseModeLine_words, hw]
  have i2 := index_short rate 2 (by omega)
  simp only [Nat.cast_ofNat] at i2
  simp only [hp, i2]
  cases index rate ((rate.length : Int) - 1) <;> simp

/-- C5: on the lines `  1920x1080 +` and `  a b` (two spaces, two tokens, a
rate token of one byte) `ParseModeLine` does not return: the read of the
second-to-last byte is out of bounds and the call panics. -/
theorem ParseModeLine_short_rate_panics :
    ParseModeLine (ascii "  1920x1080 +") = Outcome.panicked
      ∧ ParseModeLine (ascii "  a b") = Outcome.panicked := by
  decide

/-- C6: `ParseModeLine` returns the signal `ErrNotModeLine` if and only if the
line does not begin with two spaces; a line that does not begin with two
spaces yields exactly that signal (with the zero `Mode`), hence neither another
error nor a panic. -/
theorem ParseModeLine_not_mode_line_iff (line : Bytes) :
    ((∃ mode, ParseModeLine line = Outcome.returned (mode, some Error.ErrNotModeLine))
        ↔ HasPrefix line (ascii "  ") = false)
      ∧ (HasPrefix line (ascii "  ") = false →
          ParseModeLine line = Outcome.returned ({}, some Error.ErrNotModeLine)) := by
  have h2 : HasPrefix line (ascii "  ") = false →
      ParseModeLine line = Outcome.returned ({}, some Error.ErrNotModeLine) := by
    intro h
    simp [ParseModeLine, h]
  refine ⟨⟨?_, fun h => ⟨_, h2 h⟩⟩, h2⟩
  rintro ⟨mode, hm⟩
  by_contra hp
  have hp1 : HasPrefix line (ascii "  ") = true := by simpa using hp
  rw [ParseModeLine_words] at hm
  simp only [hp1, Bool.not_true, Bool.false_eq_true, if_false] at hm
  rcases hw : words line with _ | ⟨a, _ | ⟨b, m⟩⟩
  · rw [hw] at hm; simp at hm
  · rw [hw] at hm; simp at hm
  · rw [hw] at hm
    simp only at hm
    split at hm <;> simp at hm

theorem ParseModeLine_not_mode_line_iff_witness :
    HasPrefix (ascii "HDMI-1 disconnected") (ascii "  ") = false
      ∧ ParseModeLine (ascii "HDMI-1 disconnected")
        = Outcome.returned ({}, some Error.ErrNotModeLine) :=
  ⟨by decide, (ParseModeLine_not_mode_line_iff (ascii "HDMI-1 disconnected")).2 (by decide)⟩

/-- C10, amended: `ParseOutputLine` returns an error if and only if the word
scanner yields no token from the line, or exactly one token, or a second token
that is not exactly `connected` or `disconnected` (equality of byte strings);
in the last case the error is the unknown-state error carrying that second
token.  The word scanner yields the tokens of a line shorter than 65536 bytes
in full; on a longer line it stops at a token that does not fit its buffer. -/
theorem ParseOutputLine_fails_iff (line : Bytes) :
    ((ParseOutputLine line).2 ≠ none
        ↔ (words line = [] ∨ (∃ name, words line = [name])
            ∨ ∃ name state more, words line = name :: state :: more
                ∧ state ≠ ascii "connected" ∧ state ≠ ascii "disconnected"))
      ∧ (∀ name state more, words line = name :: state :: more →
          state ≠ ascii "connected" → state ≠ ascii "disconnected" →
          ParseOutputLine line = ({}, some (Error.unknownState state))) := by
  rw [ParseOutputLine_words]
  rcases hw : words line with _ | ⟨a, _ | ⟨b, m⟩⟩
  · simp
  · simp
  · by_cases h1 : b = ascii "connected"
    · simp [h1]
    · by_cases h2 : b = ascii "disconnected"
      · subst h2
        have hne : ascii "disconnected" ≠ ascii "connected" := by decide
        simp only [hne, if_false, if_true]
        refine ⟨⟨fun h => absurd rfl h, ?_⟩, ?_⟩
        · rintro (h | ⟨n, h⟩ | ⟨n, s, r, h, _, h4⟩)
          · simp at h
          · simp at h
          · simp only [List.cons.injEq] at h
            exact absurd h.2.1.symm h4
        · intro n s r h _ h4
          simp only [List.cons.injEq] at h
          exact absurd h.2.1.symm h4
      · simp only [h1, h2, if_false]
        refine ⟨⟨fun _ => Or.inr (Or.inr ⟨a, b, m, rfl, h1, h2⟩), fun _ => by simp⟩, ?_⟩
        intro n s r h _ _
        simp only [List.cons.injEq] at h
        rw [h.2.1]

theorem ParseOutputLine_fails_iff_witness :
    ParseOutputLine (ascii "DP-1 maybe") = ({}, some (Error.unknownState (ascii "maybe")))
      ∧ ParseOutputLine (ascii "DP-1 Connected")
        = ({}, some (Error.unknownState (ascii "Connected")))
      ∧ (ParseOutputLine (ascii "DP-1")).2 ≠ none
      ∧ (ParseOutputLine (ascii "  ")).2 ≠ none :=
  ⟨(ParseOutputLine_fails_iff (ascii "DP-1 maybe")).2 (ascii "DP-1") (ascii "maybe") []
      (by decide) (by decide) (by decide),
   (ParseOutputLine_fails_iff (ascii "DP-1 Connected")).2 (ascii "DP-1") (ascii "Connected") []
      (by decide) (by decide) (by decide),
   (ParseOutputLine_fails_iff (ascii "DP-1")).1.2 (Or.inr (Or.inl ⟨ascii "DP-1", by decide⟩)),
   (ParseOutputLine_fails_iff (ascii "  ")).1.2 (Or.inl (by decide))⟩

/-! ## The first line of a text -/

theorem HasPrefix_iff (s pre : Bytes) : HasPrefix s pre = true ↔ pre <+: s := by
  unfold HasPrefix
  rw [List.prefix_iff_eq_take]
  simp only [Bool.and_eq_true, decide_eq_true_eq, beq_iff_eq]
  constructor
  · rintro ⟨_, h⟩
    exact h.symm
  · intro h
    refine ⟨?_, h.symm⟩
    have := congrArg List.length h
    rw [List.length_take] at this
    omega

theorem dropCR_initial (cur : Bytes) : dropCR cur <+: cur := by
  unfold dropCR
  split_ifs
  · exact List.dropLast_prefix cur
  · exact List.prefix_refl cur

theorem scanLinesAux_head_initial (cur data : Bytes) (l : Bytes) (rest : List Bytes)
    (h : scanLinesAux cur data = l :: rest) : l <+: cur ++ data := by
  induction data generalizing cur with
  | nil =>
    simp only [scanLinesAux] at h
    split_ifs at h
    simp only [List.cons.injEq] at h
    rw [← h.1, List.append_nil]
    exact dropCR_initial cur
  | cons b t ih =>
    simp only [scanLinesAux] at h
    split_ifs at h
    · simp only [List.cons.injEq] at h
      rw [← h.1]
      exact (dropCR_initial cur).trans (List.prefix_append cur _)
    · have := ih (cur ++ [b]) h
      simpa using this

theorem scanLines_head_HasPrefix {rd l : Bytes} {rest : List Bytes} {pre : Bytes}
    (h : scanLines rd = l :: rest) (hp : HasPrefix l pre = true) :
    HasPrefix rd pre = true := by
  rw [HasPrefix_iff] at hp ⊢
  have := scanLinesAux_head_initial [] rd l rest h
  exact hp.trans (by simpa using this)

/-! ## Claims on `RandrParse` -/

theorem dispatch_start_ok (v : Vars) {line : Bytes} (hs : v.state = State.StateStart)
    (h : HasPrefix line (ascii "Screen ") = true) :
    dispatch v line = Flow.nextLine { v with state := State.StateOutput } := by
  unfold dispatch
  rw [hs]
  simp [h]

theorem dispatch_start_err (v : Vars) {line : Bytes} (hs : v.state = State.StateStart)
    (h : HasPrefix line (ascii "Screen ") = false) :
    dispatch v line = Flow.ret ([], some (Error.unexpectedFirstLine line)) := by
  unfold dispatch
  rw [hs]
  simp [h]

/-- The loop of `RandrParse` on the lines of a document made of groups. -/
theorem RandrParseLines_grouping (first : Bytes) (groups : List (Bytes × List Bytes))
    (hfirst : HasPrefix first (ascii "Screen ") = true)
    (hhdr : ∀ g ∈ groups,
      (ParseOutputLine g.1).2 = none ∧ HasPrefix g.1 (ascii "  ") = false)
    (hmode : ∀ g ∈ groups, ∀ m ∈ g.2,
      ParseModeLine m = Outcome.returned (modeOf m, none)) :
    RandrParseLines (first :: groupLines groups)
      = Outcome.returned (groups.map groupOutput, none) := by
  replace hmode : ∀ g ∈ groups, ∀ m ∈ g.2,
      ∃ mode, ParseModeLine m = Outcome.returned (mode, none) :=
    fun g hg m hm => ⟨_, hmode g hg m hm⟩
  unfold RandrParseLines
  rw [loop, dispatch_start_ok _ rfl hfirst]
  simp only
  cases groups with
  | nil => simp [groupLines, loop]
  | cons g gs =>
    obtain ⟨hacc, _⟩ := hhdr g (List.mem_cons_self _ _)
    obtain ⟨hn, hm⟩ := ParseOutputLine_ok_name hacc
    rw [groupLines, loop, dispatch_header_output _ rfl hacc]
    simp only
    rw [loop_modes _ _ _ rfl (hmode g (List.mem_cons_self _ _))]
    rw [loop_groups _ gs rfl hn (fun x hx => hhdr x (List.mem_cons_of_mem _ hx))
      (fun x hx => hmode x (List.mem_cons_of_mem _ hx))]
    simp [groupOutput, hm]

/-- C7 fails on the empty input: it does not start with `Screen `, and
`RandrParse` returns no outputs and no error. -/
theorem RandrParse_empty_input_no_error :
    HasPrefix [] (ascii "Screen ") = false
      ∧ RandrParse [] = Outcome.returned ([], none)
      ∧ ¬ ∃ e, RandrParse [] = Outcome.returned ([], some e) := by
  refine ⟨by decide, by decide, ?_⟩
  rintro ⟨e, he⟩
  have h0 : RandrParse [] = Outcome.returned ([], none) := by decide
  rw [h0] at he
  simp at he

/-- C7, amended: an input text that does not start with `Screen ` and from
which the line scanner yields at least one line (the text is not empty and its
first line is shorter than 65536 bytes) makes `RandrParse` return the
unexpected-first-line error and no outputs; an input from which the scanner
yields no line, as the input of zero lines, yields no outputs and no error. -/
theorem RandrParse_text_without_screen (rd : Bytes)
    (h : HasPrefix rd (ascii "Screen ") = false) :
    (scanLines rd ≠ [] → ∃ line rest, scanLines rd = line :: rest
        ∧ RandrParse rd = Outcome.returned ([], some (Error.unexpectedFirstLine line)))
      ∧ (scanLines rd = [] → RandrParse rd = Outcome.returned ([], none)) := by
  constructor
  · intro hne
    rcases hl : scanLines rd with _ | ⟨line, rest⟩
    · exact absurd hl hne
    · refine ⟨line, rest, rfl, ?_⟩
      have hp : HasPrefix line (ascii "Screen ") = false := by
        by_contra hc
        have := scanLines_head_HasPrefix hl (by simpa using hc)
        rw [h] at this
        exact absurd this (by simp)
      unfold RandrParse RandrParseLines
      rw [hl, loop, dispatch_start_err _ rfl hp]
  · intro hnil
    unfold RandrParse RandrParseLines
    rw [hnil]
    rfl

theorem RandrParse_text_without_screen_witness :
    HasPrefix (ascii "DP-1 connected\n  1920x1080 60.00*+\n") (ascii "Screen ") = false
      ∧ RandrParse (ascii "DP-1 connected\n  1920x1080 60.00*+\n")
        = Outcome.returned ([], some (Error.unexpectedFirstLine (ascii "DP-1 connected"))) := by
  refine ⟨by decide, ?_⟩
  obtain ⟨line, rest, hl, hr⟩ :=
    (RandrParse_text_without_screen (ascii "DP-1 connected\n  1920x1080 60.00*+\n")
      (by decide)).1 (by decide)
  rw [hr]
  have : scanLines (ascii "DP-1 connected\n  1920x1080 60.00*+\n")
      = [ascii "DP-1 connected", ascii "  1920x1080 60.00*+"] := by decide
  rw [this] at hl
  simp only [List.cons.injEq] at hl
  rw [hl.1]

/-- C8, amended: when the line scanner yields a first line from the input
(the first line is shorter than 65536 bytes) and this line does not have the
prefix `Screen `, `RandrParse` returns the unexpected-first-line error and no
outputs, whatever the remaining lines are; when it has the prefix, the line is
discarded: the result is that of the loop run on the remaining lines that the
scanner yields, from the state `StateOutput` with no output begun and none
collected. -/
theorem RandrParse_first_line (rd line : Bytes) (rest : List Bytes)
    (h : scanLines rd = line :: rest) :
    (HasPrefix line (ascii "Screen ") = false →
        RandrParse rd = Outcome.returned ([], some (Error.unexpectedFirstLine line)))
      ∧ (HasPrefix line (ascii "Screen ") = true →
        RandrParse rd
          = loop { state := State.StateOutput, output := {}, outputs := [] } rest) := by
  unfold RandrParse RandrParseLines
  rw [h]
  constructor
  · intro hp
    rw [loop, dispatch_start_err _ rfl hp]
  · intro hp
    rw [loop, dispatch_start_ok _ rfl hp]

theorem RandrParse_first_line_witness :
    RandrParse (ascii "screen 0\nDP-1 connected\n")
        = Outcome.returned ([], some (Error.unexpectedFirstLine (ascii "screen 0")))
      ∧ RandrParse (ascii "Screen 0: minimum 8 x 8\n") = Outcome.returned ([], none)
      ∧ RandrParse (ascii "Screen 0: minimum 8 x 8\nDP-1 disconnected\n")
        = Outcome.returned ([{ Name := ascii "DP-1" }], none) :=
  ⟨(RandrParse_first_line (ascii "screen 0\nDP-1 connected\n") (ascii "screen 0")
      [ascii "DP-1 connected"] (by decide)).1 (by decide),
   ((RandrParse_first_line (ascii "Screen 0: minimum 8 x 8\n") (ascii "Screen 0: minimum 8 x 8")
      [] (by decide)).2 (by decide)).trans (by decide),
   ((RandrParse_first_line (ascii "Screen 0: minimum 8 x 8\nDP-1 disconnected\n")
      (ascii "Screen 0: minimum 8 x 8") [ascii "DP-1 disconnected"]
      (by decide)).2 (by decide)).trans (by decide)⟩

/-- C11: a line that begins with two spaces and has fewer than two tokens makes
`ParseModeLine` return the zero `Mode` and an error that is not
`ErrNotModeLine`: the mode-name error when the line has no token, the
refresh-rate error when it has one. -/
theorem ParseModeLine_too_short (line : Bytes)
    (hp : HasPrefix line (ascii "  ") = true) (hw : (words line).length < 2) :
    ∃ e, ParseModeLine line = Outcome.returned ({}, some e)
      ∧ e ≠ Error.ErrNotModeLine
      ∧ e = (if words line = [] then Error.modeNameNotFound line
              else Error.noRefreshRate line) := by
  rw [ParseModeLine_words]
  simp only [hp, Bool.not_true, Bool.false_eq_true, if_false]
  rcases hw2 : words line with _ | ⟨a, _ | ⟨b, m⟩⟩
  · exact ⟨Error.modeNameNotFound line, rfl, by simp, by simp⟩
  · exact ⟨Error.noRefreshRate line, rfl, by simp, by simp⟩
  · rw [hw2] at hw
    simp only [List.length_cons] at hw
    omega

theorem ParseModeLine_too_short_witness :
    ParseModeLine (ascii "    ")
        = Outcome.returned ({}, some (Error.modeNameNotFound (ascii "    ")))
      ∧ ParseModeLine (ascii "  1920x1080")
        = Outcome.returned ({}, some (Error.noRefreshRate (ascii "  1920x1080"))) := by
  obtain ⟨e1, h1, _, he1⟩ := ParseModeLine_too_short (ascii "    ") (by decide) (by decide)
  obtain ⟨e2, h2, _, he2⟩ :=
    ParseModeLine_too_short (ascii "  1920x1080") (by decide) (by decide)
  rw [h1, h2, he1, he2]
  exact ⟨by decide, by decide⟩

/-! ## The sentinel error and the invariant of the loop -/

theorem ParseOutputLine_not_signal (line : Bytes) :
    (ParseOutputLine line).2 ≠ some Error.ErrNotModeLine := by
  rw [ParseOutputLine_words]
  rcases words line with _ | ⟨a, _ | ⟨b, m⟩⟩
  · simp
  · simp
  · simp only
    split_ifs <;> simp

theorem ParseModeLine_signal_no_indent {line : Bytes} {mode : Mode}
    (h : ParseModeLine line = Outcome.returned (mode, some Error.ErrNotModeLine)) :
    HasPrefix line (ascii "  ") = false := by
  by_contra hp
  have hp1 : HasPrefix line (ascii "  ") = true := by simpa using hp
  rw [ParseModeLine_words] at h
  simp only [hp1, Bool.not_true, Bool.false_eq_true, if_false] at h
  rcases hw : words line with _ | ⟨a, _ | ⟨b, m⟩⟩
  · rw [hw] at h; simp at h
  · rw [hw] at h; simp at h
  · rw [hw] at h
    simp only at h
    split at h <;> simp at h

theorem caseOutput_nextLine {w v1 : Vars} {line : Bytes}
    (h : caseOutput w line = Flow.nextLine v1) :
    (ParseOutputLine line).2 = none
      ∧ v1 = { w with output := (ParseOutputLine line).1, state := State.StateMode } := by
  cases hp : (ParseOutputLine line).2 with
  | none =>
    rw [caseOutput_ok w hp] at h
    exact ⟨rfl, (Flow.nextLine.inj h).symm⟩
  | some e =>
    rw [caseOutput_err w hp] at h
    exact absurd h (by simp)

theorem caseOutput_ret_not_signal {w : Vars} {line : Bytes}
    {r : List Output × Option Error} (h : caseOutput w line = Flow.ret r) :
    r.2 ≠ some Error.ErrNotModeLine := by
  cases hp : (ParseOutputLine line).2 with
  | none =>
    rw [caseOutput_ok w hp] at h
    exact absurd h (by simp)
  | some e =>
    rw [caseOutput_err w hp] at h
    rw [← Flow.ret.inj h]
    have := ParseOutputLine_not_signal line
    rw [hp] at this
    exact this

theorem dispatch_ret_not_signal {v : Vars} {line : Bytes}
    {r : List Output × Option Error} (h : dispatch v line = Flow.ret r) :
    r.2 ≠ some Error.ErrNotModeLine := by
  unfold dispatch at h
  split at h
  · split_ifs at h
    rw [← Flow.ret.inj h]
    simp
  · exact caseOutput_ret_not_signal h
  · split at h
    · exact absurd h (by simp)
    · split_ifs at h with hsig
      · exact caseOutput_ret_not_signal h
      · split at h
        · rw [← Flow.ret.inj h]
          exact hsig
        · exact absurd h (by simp)

theorem loop_not_signal (v : Vars) (lines : List Bytes) (R : List Output) :
    loop v lines ≠ Outcome.returned (R, some Error.ErrNotModeLine) := by
  induction lines generalizing v with
  | nil => simp [loop]
  | cons l ls ih =>
    rw [loop]
    cases hd : dispatch v l with
    | nextLine v1 => exact ih v1
    | ret r =>
      intro hc
      have h2 := dispatch_ret_not_signal hd
      simp only [Outcome.returned.injEq] at hc
      rw [hc] at h2
      exact h2 rfl
    | panicked => simp

theorem words_head_ne_nil {line n : Bytes} {ws : List Bytes} (h : words line = n :: ws) :
    n ≠ [] := by
  obtain ⟨rest, hs, _⟩ := Scan_of_words_cons h
  exact Scan_tok_ne_nil hs

theorem ParseModeLine_ok_name {line : Bytes} {mode : Mode}
    (h : ParseModeLine line = Outcome.returned (mode, none)) : mode.Name ≠ [] := by
  rw [ParseModeLine_words] at h
  by_cases hp : HasPrefix line (ascii "  ") = true
  · simp only [hp, Bool.not_true, Bool.false_eq_true, if_false] at h
    rcases hw : words line with _ | ⟨a, _ | ⟨b, m⟩⟩
    · rw [hw] at h; simp at h
    · rw [hw] at h; simp at h
    · rw [hw] at h
      simp only at h
      split at h
      · simp only [Outcome.returned.injEq, Prod.mk.injEq, and_true] at h
        rw [← h]
        exact words_head_ne_nil hw
      · simp at h
  · simp [hp] at h

theorem ParseModeLine_ok_modeOf {line : Bytes} {mode : Mode} {err : Option Error}
    (h : ParseModeLine line = Outcome.returned (mode, err)) : modeOf line = mode := by
  simp [modeOf, h]

theorem dispatch_mode_nextLine {v v1 : Vars} {line : Bytes}
    (hs : v.state = State.StateMode) (h : dispatch v line = Flow.nextLine v1) :
    (HasPrefix line (ascii "  ") = false ∧ (ParseOutputLine line).2 = none
        ∧ v1 = { state := State.StateMode, output := (ParseOutputLine line).1,
                 outputs := v.outputs ++ [v.output] })
      ∨ (HasPrefix line (ascii "  ") = true
        ∧ ParseModeLine line = Outcome.returned (modeOf line, none)
        ∧ v1 = { v with output :=
                  { v.output with Modes := v.output.Modes ++ [modeOf line] } }) := by
  by_cases hp : HasPrefix line (ascii "  ") = true
  · right
    have h0 := h
    unfold dispatch at h
    rw [hs] at h
    simp only at h
    cases hm : ParseModeLine line with
    | panicked => rw [hm] at h; simp at h
    | returned p =>
      obtain ⟨mode, err⟩ := p
      rw [hm] at h
      simp only at h
      have hmo := ParseModeLine_ok_modeOf hm
      cases err with
      | some e =>
        split_ifs at h with hsig
        rw [Option.some.injEq] at hsig
        rw [hsig] at hm
        have := ParseModeLine_signal_no_indent hm
        rw [hp] at this
        exact absurd this (by simp)
      | none =>
        rw [dispatch_mode_ok v hs hm] at h0
        rw [hmo]
        exact ⟨hp, rfl, (Flow.nextLine.inj h0).symm⟩
  · left
    have hp0 : HasPrefix line (ascii "  ") = false := by simpa using hp
    rw [dispatch_mode_redispatch v hs hp0] at h
    obtain ⟨h1, h2⟩ := caseOutput_nextLine h
    exact ⟨hp0, h1, h2⟩

theorem dispatch_invariant {v v1 : Vars} {line : Bytes}
    (h : dispatch v line = Flow.nextLine v1) (hi : invariant v) : invariant v1 := by
  obtain ⟨i1, i2, i3, i4⟩ := hi
  cases hs : v.state with
  | StateStart =>
    unfold dispatch at h
    rw [hs] at h
    simp only at h
    split_ifs at h
    rw [← Flow.nextLine.inj h]
    exact ⟨i1, i2, by simp, fun _ => i4 (by simp [hs])⟩
  | StateOutput =>
    unfold dispatch at h
    rw [hs] at h
    simp only at h
    obtain ⟨h1, h2⟩ := caseOutput_nextLine h
    obtain ⟨hn, hm⟩ := ParseOutputLine_ok_name h1
    rw [h2]
    exact ⟨i1, by simp [hm], fun _ => hn, by simp⟩
  | StateMode =>
    rcases dispatch_mode_nextLine hs h with ⟨_, h1, h2⟩ | ⟨_, h1, h2⟩
    · obtain ⟨hn, hm⟩ := ParseOutputLine_ok_name h1
      rw [h2]
      refine ⟨?_, by simp [hm], fun _ => hn, by simp⟩
      intro o ho
      simp only [List.mem_append, List.mem_singleton] at ho
      rcases ho with ho | ho
      · exact i1 o ho
      · rw [ho]
        exact ⟨i3 hs, i2⟩
    · rw [h2]
      refine ⟨i1, ?_, fun _ => i3 hs, fun hc => absurd hs hc⟩
      intro m hm
      simp only [List.mem_append, List.mem_singleton] at hm
      rcases hm with hm | hm
      · exact i2 m hm
      · rw [hm]
        exact ParseModeLine_ok_name h1

theorem advance_invariant {v v1 : Vars} {P : List Bytes} (h : advance v P = some v1)
    (hi : invariant v) : invariant v1 := by
  induction P generalizing v with
  | nil =>
    simp only [advance, Option.some.injEq] at h
    rw [← h]
    exact hi
  | cons l P ih =>
    simp only [advance] at h
    cases hd : dispatch v l with
    | nextLine v2 =>
      rw [hd] at h
      exact ih h (dispatch_invariant hd hi)
    | ret r => rw [hd] at h; simp at h
    | panicked => rw [hd] at h; simp at h

theorem invariant_init : invariant {} := by
  refine ⟨?_, ?_, ?_, ?_⟩ <;> simp

theorem loop_of_advance {v v1 : Vars} {P : List Bytes} (h : advance v P = some v1) :
    loop v P = loop v1 [] := by
  have := loop_append v P []
  rw [List.append_nil, h] at this
  exact this

theorem loop_nil_mode {v : Vars} (hs : v.state = State.StateMode) (hi : invariant v) :
    loop v [] = Outcome.returned (v.outputs ++ [v.output], none) := by
  rw [loop, if_pos (hi.2.2.1 hs)]

theorem loop_nil_other {v : Vars} (hs : v.state ≠ State.StateMode) (hi : invariant v) :
    loop v [] = Outcome.returned (v.outputs, none) := by
  rw [loop, if_neg (by simp [hi.2.2.2 hs])]

theorem loop_ok_named {v : Vars} {P : List Bytes} {R : List Output}
    (hi : invariant v) (h : loop v P = Outcome.returned (R, none)) :
    ∀ o ∈ R, namedOutput o := by
  obtain ⟨v1, hv1⟩ := advance_of_loop_ok h
  have hi1 := advance_invariant hv1 hi
  rw [loop_of_advance hv1] at h
  by_cases hs : v1.state = State.StateMode
  · rw [loop_nil_mode hs hi1] at h
    simp only [Outcome.returned.injEq, Prod.mk.injEq, and_true] at h
    rw [← h]
    intro o ho
    simp only [List.mem_append, List.mem_singleton] at ho
    rcases ho with ho | ho
    · exact hi1.1 o ho
    · rw [ho]
      exact ⟨hi1.2.2.1 hs, hi1.2.1⟩
  · rw [loop_nil_other hs hi1] at h
    simp only [Outcome.returned.injEq, Prod.mk.injEq, and_true] at h
    rw [← h]
    exact hi1.1

/-- C12: the error that `RandrParse` returns is never the sentinel
`ErrNotModeLine`, whatever the input (stated for the text and for the sequence
of its lines); `ParseOutputLine` never returns it either; and in `StateMode` a
line for which `ParseModeLine` returns the sentinel closes the current output
and is handled by `case StateOutput`. -/
theorem RandrParse_never_not_mode_line :
    (∀ rd R, RandrParse rd ≠ Outcome.returned (R, some Error.ErrNotModeLine))
      ∧ (∀ lines R, RandrParseLines lines ≠ Outcome.returned (R, some Error.ErrNotModeLine))
      ∧ (∀ line, (ParseOutputLine line).2 ≠ some Error.ErrNotModeLine)
      ∧ (∀ (v : Vars) line mode, v.state = State.StateMode →
          ParseModeLine line = Outcome.returned (mode, some Error.ErrNotModeLine) →
          dispatch v line =
            caseOutput { v with outputs := v.outputs ++ [v.output], output := {},
                                state := State.StateOutput } line) := by
  refine ⟨fun rd R => loop_not_signal _ _ R, fun lines R => loop_not_signal _ _ R,
    ParseOutputLine_not_signal, ?_⟩
  intro v line mode hs hm
  exact dispatch_mode_redispatch v hs (ParseModeLine_signal_no_indent hm)

theorem RandrParse_never_not_mode_line_witness :
    RandrParse (ascii "Screen 0\nDP-1 connected\nHDMI-1 maybe\n")
        = Outcome.returned ([], some (Error.unknownState (ascii "maybe")))
      ∧ RandrParse (ascii "Screen 0\nDP-1 connected\nHDMI-1 maybe\n")
        ≠ Outcome.returned ([], some Error.ErrNotModeLine) :=
  ⟨by decide,
   RandrParse_never_not_mode_line.1 (ascii "Screen 0\nDP-1 connected\nHDMI-1 maybe\n") []⟩

/-- C13: non-empty names.  When `RandrParse` succeeds (on a text, or on a
sequence of lines), every output of the result has a non-empty name and so has
every mode of every output; an output returned without error by
`ParseOutputLine` and a mode returned without error by `ParseModeLine` have a
non-empty name; and when the input ends in `StateMode`, the output under
construction is appended to the result. -/
theorem RandrParse_names_nonempty :
    (∀ rd R, RandrParse rd = Outcome.returned (R, none) →
        ∀ o ∈ R, o.Name ≠ [] ∧ ∀ m ∈ o.Modes, m.Name ≠ [])
      ∧ (∀ lines R, RandrParseLines lines = Outcome.returned (R, none) →
        ∀ o ∈ R, o.Name ≠ [] ∧ ∀ m ∈ o.Modes, m.Name ≠ [])
      ∧ (∀ line, (ParseOutputLine line).2 = none → (ParseOutputLine line).1.Name ≠ [])
      ∧ (∀ line mode, ParseModeLine line = Outcome.returned (mode, none) → mode.Name ≠ [])
      ∧ (∀ lines v, advance {} lines = some v → v.state = State.StateMode →
        RandrParseLines lines = Outcome.returned (v.outputs ++ [v.output], none)) := by
  refine ⟨fun rd R h => loop_ok_named invariant_init h,
    fun lines R h => loop_ok_named invariant_init h,
    fun line h => (ParseOutputLine_ok_name h).1,
    fun line mode h => ParseModeLine_ok_name h, ?_⟩
  intro lines v hv hs
  unfold RandrParseLines
  rw [loop_of_advance hv]
  exact loop_nil_mode hs (advance_invariant hv invariant_init)

theorem RandrParse_names_nonempty_witness :
    RandrParseLines [ascii "Screen 0", ascii "DP-1 connected", ascii "  1024x768 60.00*+"]
        = Outcome.returned
            ([{ Name := ascii "DP-1", Connected := true,
                Modes := [{ Name := ascii "1024x768", Default := true, Active := true }] }],
              none)
      ∧ ∀ o ∈ [Output.mk (ascii "DP-1") [Mode.mk (ascii "1024x768") true true] true],
          o.Name ≠ [] ∧ ∀ m ∈ o.Modes, m.Name ≠ [] :=
  ⟨by decide,
   RandrParse_names_nonempty.2.1
     [ascii "Screen 0", ascii "DP-1 connected", ascii "  1024x768 60.00*+"] _ (by decide)⟩

theorem dispatch_nextLine_mode {v v1 : Vars} {line : Bytes}
    (hs : v.state ≠ State.StateStart) (h : dispatch v line = Flow.nextLine v1) :
    v1.state = State.StateMode := by
  cases hst : v.state with
  | StateStart => exact absurd hst hs
  | StateOutput =>
    unfold dispatch at h
    rw [hst] at h
    simp only at h
    rw [(caseOutput_nextLine h).2]
  | StateMode =>
    rcases dispatch_mode_nextLine hst h with ⟨_, _, h2⟩ | ⟨_, _, h2⟩
    · rw [h2]
    · rw [h2]
      exact hst

theorem advance_cons {v v1 : Vars} {l : Bytes} {P : List Bytes}
    (h : advance v (l :: P) = some v1) :
    ∃ v2, dispatch v l = Flow.nextLine v2 ∧ advance v2 P = some v1 := by
  simp only [advance] at h
  cases hd : dispatch v l with
  | nextLine v2 =>
    rw [hd] at h
    exact ⟨v2, rfl, h⟩
  | ret r => rw [hd] at h; simp at h
  | panicked => rw [hd] at h; simp at h

theorem loop_ok_iff_advance (v : Vars) (P : List Bytes) :
    (∃ R, loop v P = Outcome.returned (R, none)) ↔ ∃ v1, advance v P = some v1 := by
  constructor
  · rintro ⟨R, h⟩
    exact advance_of_loop_ok h
  · rintro ⟨v1, h⟩
    rw [loop_of_advance h, loop]
    exact ⟨_, rfl⟩

theorem advance_cons_iff (v : Vars) (l : Bytes) (P : List Bytes) :
    (∃ v1, advance v (l :: P) = some v1)
      ↔ ∃ v2, dispatch v l = Flow.nextLine v2 ∧ ∃ v1, advance v2 P = some v1 := by
  constructor
  · rintro ⟨v1, h⟩
    obtain ⟨v2, hd, ha⟩ := advance_cons h
    exact ⟨v2, hd, v1, ha⟩
  · rintro ⟨v2, hd, v1, ha⟩
    refine ⟨v1, ?_⟩
    simp only [advance, hd]
    exact ha

theorem advance_mode_iff (v : Vars) (P : List Bytes) (hs : v.state = State.StateMode) :
    (∃ v1, advance v P = some v1)
      ↔ ∀ l ∈ P,
          (HasPrefix l (ascii "  ") = true
              ∧ ParseModeLine l = Outcome.returned (modeOf l, none))
            ∨ (HasPrefix l (ascii "  ") = false ∧ (ParseOutputLine l).2 = none) := by
  induction P generalizing v with
  | nil => simp [advance]
  | cons l P ih =>
    rw [advance_cons_iff]
    constructor
    · rintro ⟨v2, hd, hex⟩
      have hs2 := dispatch_nextLine_mode (by rw [hs]; simp) hd
      have hrest := (ih v2 hs2).1 hex
      intro x hx
      rcases List.mem_cons.1 hx with hx | hx
      · rw [hx]
        rcases dispatch_mode_nextLine hs hd with ⟨h1, h2, _⟩ | ⟨h1, h2, _⟩
        · exact Or.inr ⟨h1, h2⟩
        · exact Or.inl ⟨h1, h2⟩
      · exact hrest x hx
    · intro hall
      have hl := hall l (List.mem_cons_self _ _)
      have hd : ∃ v2, dispatch v l = Flow.nextLine v2 := by
        rcases hl with ⟨_, h2⟩ | ⟨h1, h2⟩
        · exact ⟨_, dispatch_mode_ok v hs h2⟩
        · exact ⟨_, by rw [dispatch_mode_redispatch v hs h1, caseOutput_ok _ h2]⟩
      obtain ⟨v2, hd⟩ := hd
      have hs2 := dispatch_nextLine_mode (by rw [hs]; simp) hd
      exact ⟨v2, hd, (ih v2 hs2).2 (fun x hx => hall x (List.mem_cons_of_mem _ hx))⟩

theorem dispatch_start_iff (v : Vars) (l : Bytes) (hs : v.state = State.StateStart)
    (v2 : Vars) :
    dispatch v l = Flow.nextLine v2
      ↔ HasPrefix l (ascii "Screen ") = true ∧ v2 = { v with state := State.StateOutput } := by
  by_cases hp : HasPrefix l (ascii "Screen ") = true
  · rw [dispatch_start_ok v hs hp]
    simp only [Flow.nextLine.injEq, hp, true_and]
    exact eq_comm
  · have hp0 : HasPrefix l (ascii "Screen ") = false := by simpa using hp
    rw [dispatch_start_err v hs hp0]
    simp [hp0]

theorem dispatch_output_iff (v : Vars) (l : Bytes) (hs : v.state = State.StateOutput)
    (v2 : Vars) :
    dispatch v l = Flow.nextLine v2
      ↔ (ParseOutputLine l).2 = none
        ∧ v2 = { v with output := (ParseOutputLine l).1, state := State.StateMode } := by
  constructor
  · intro h
    unfold dispatch at h
    rw [hs] at h
    exact caseOutput_nextLine h
  · rintro ⟨h1, h2⟩
    rw [dispatch_header_output v hs h1, h2]

/-- C17, amended: success exactly on well-formed documents.  On an input
from which the line scanner yields at least one line, `RandrParse` succeeds
(returns outputs and no error) if and only if the first line yielded starts
with `Screen `, the second, if there is one, is accepted by `ParseOutputLine`,
and every line yielded from the third on either begins with two spaces and is
accepted by `ParseModeLine`, or does not begin with two spaces and is accepted
by `ParseOutputLine`.  The line scanner yields all the lines of an input whose
lines are shorter than 65536 bytes. -/
theorem RandrParse_succeeds_iff (rd first : Bytes) (rest : List Bytes)
    (h : scanLines rd = first :: rest) :
    (∃ R, RandrParse rd = Outcome.returned (R, none))
      ↔ HasPrefix first (ascii "Screen ") = true
        ∧ (∀ second ∈ rest.head?, (ParseOutputLine second).2 = none)
        ∧ ∀ l ∈ rest.tail,
            (HasPrefix l (ascii "  ") = true
                ∧ ParseModeLine l = Outcome.returned (modeOf l, none))
              ∨ (HasPrefix l (ascii "  ") = false ∧ (ParseOutputLine l).2 = none) := by
  unfold RandrParse RandrParseLines
  rw [h, loop_ok_iff_advance, advance_cons_iff]
  constructor
  · rintro ⟨v2, hd, hex⟩
    obtain ⟨hp, hv2⟩ := (dispatch_start_iff _ _ rfl v2).1 hd
    refine ⟨hp, ?_⟩
    cases rest with
    | nil => simp
    | cons second more =>
      rw [advance_cons_iff] at hex
      obtain ⟨v3, hd3, hex3⟩ := hex
      obtain ⟨hacc, hv3⟩ := (dispatch_output_iff v2 second (by rw [hv2]) v3).1 hd3
      refine ⟨by simpa using hacc, ?_⟩
      exact (advance_mode_iff v3 more (by rw [hv3])).1 hex3
  · rintro ⟨hp, h2, h3⟩
    refine ⟨_, (dispatch_start_iff _ _ rfl _).2 ⟨hp, rfl⟩, ?_⟩
    cases rest with
    | nil => exact ⟨_, rfl⟩
    | cons second more =>
      rw [advance_cons_iff]
      have hacc : (ParseOutputLine second).2 = none := h2 second (by simp)
      refine ⟨_, (dispatch_output_iff _ second rfl _).2 ⟨hacc, rfl⟩, ?_⟩
      exact (advance_mode_iff _ more rfl).2 h3

theorem RandrParse_succeeds_iff_witness :
    (∃ R, RandrParse (ascii "Screen 0\n  DP-1 connected\n  1024x768 60.00*+\nHDMI-1 disconnected\n")
        = Outcome.returned (R, none))
      ∧ ¬ (∃ R, RandrParse (ascii "Screen 0\nDP-1 connected\nHDMI-1\n")
        = Outcome.returned (R, none)) :=
  ⟨(RandrParse_succeeds_iff
      (ascii "Screen 0\n  DP-1 connected\n  1024x768 60.00*+\nHDMI-1 disconnected\n")
      (ascii "Screen 0")
      [ascii "  DP-1 connected", ascii "  1024x768 60.00*+", ascii "HDMI-1 disconnected"]
      (by decide)).2 ⟨by decide, by decide, by decide⟩,
   fun hex =>
     absurd
       (((RandrParse_succeeds_iff (ascii "Screen 0\nDP-1 connected\nHDMI-1\n") (ascii "Screen 0")
          [ascii "DP-1 connected", ascii "HDMI-1"] (by decide)).1 hex).2.2
          (ascii "HDMI-1") (by decide))
       (by decide)⟩

/-! ## The inner loop pass by pass -/

theorem switchPass_other (v : Vars) (line : Bytes) (hs : v.state ≠ State.StateMode) :
    switchPass v line = Pass.leave (dispatch v line) := by
  unfold switchPass dispatch caseOutput
  cases hst : v.state with
  | StateStart =>
    simp only
    split_ifs <;> rfl
  | StateOutput =>
    simp only
    rcases ParseOutputLine line with ⟨o, _ | e⟩ <;> rfl
  | StateMode => exact absurd hst hs

theorem switchPass_mode_indent (v : Vars) (line : Bytes) (hs : v.state = State.StateMode)
    (hp : HasPrefix line (ascii "  ") = true) :
    switchPass v line = Pass.leave (dispatch v line) := by
  unfold switchPass dispatch
  rw [hs]
  simp only
  cases hm : ParseModeLine line with
  | panicked => rfl
  | returned p =>
    obtain ⟨mode, err⟩ := p
    have hne : err ≠ some Error.ErrNotModeLine := by
      intro hc
      rw [hc] at hm
      have := ParseModeLine_signal_no_indent hm
      rw [hp] at this
      exact absurd this (by simp)
    simp only [hne, if_false]
    cases err <;> rfl

theorem switchPass_mode_again (v : Vars) (line : Bytes) (hs : v.state = State.StateMode)
    (hp : HasPrefix line (ascii "  ") = false) :
    switchPass v line =
      Pass.again { v with outputs := v.outputs ++ [v.output], output := {},
                          state := State.StateOutput } := by
  unfold switchPass
  rw [hs]
  simp [ParseModeLine_no_indent hp]

theorem switchPass_again {v v1 : Vars} {line : Bytes}
    (h : switchPass v line = Pass.again v1) :
    v.state = State.StateMode ∧ v1.state = State.StateOutput := by
  by_cases hs : v.state = State.StateMode
  · refine ⟨hs, ?_⟩
    by_cases hp : HasPrefix line (ascii "  ") = true
    · rw [switchPass_mode_indent v line hs hp] at h
      exact absurd h (by simp)
    · rw [switchPass_mode_again v line hs (by simpa using hp)] at h
      rw [← Pass.again.inj h]
  · rw [switchPass_other v line hs] at h
    exact absurd h (by simp)

theorem innerLoop_two (n : Nat) (v : Vars) (line : Bytes) :
    innerLoop (n + 2) v line =
      some (dispatch v line,
        if v.state = State.StateMode ∧ HasPrefix line (ascii "  ") = false then
          [State.StateMode, State.StateOutput]
        else [v.state]) := by
  by_cases hs : v.state = State.StateMode
  · by_cases hp : HasPrefix line (ascii "  ") = true
    · rw [innerLoop, switchPass_mode_indent v line hs hp]
      simp [hp]
    · have hp0 : HasPrefix line (ascii "  ") = false := by simpa using hp
      rw [innerLoop, switchPass_mode_again v line hs hp0]
      simp only
      rw [innerLoop, switchPass_other _ line (by simp)]
      simp only [hs, hp0, and_self, if_true]
      rw [dispatch_mode_redispatch v hs hp0]
      rfl
  · rw [innerLoop, switchPass_other v line hs]
    simp [hs]

theorem runLines_two (n : Nat) (v : Vars) (lines : List Bytes) :
    runLines (n + 2) v lines = some (loop v lines) := by
  induction lines generalizing v with
  | nil => rfl
  | cons l ls ih =>
    rw [runLines, innerLoop_two, loop]
    cases hd : dispatch v l with
    | nextLine v1 => exact ih v1
    | ret r => rfl
    | panicked => rfl

/-- C18: the re-dispatch loop terminates.  With at least two passes of the
inner loop allowed on each line, the run of `RandrParse` pass by pass ends, on
every input, with the result `RandrParse`; on every line and from every state
the inner loop ends after at most two passes, of which at most one is in
`StateMode` (one call of `ParseModeLine`) and at most one in `StateOutput`
(one call of `ParseOutputLine`); the switch is run again only from
`StateMode`, with the state set to `StateOutput`; and a pass in `StateOutput`
ends the handling of the line, with the line consumed or the parse aborted. -/
theorem RandrParse_terminates (fuel : Nat) (hf : 2 ≤ fuel) :
    (∀ rd, runLines fuel {} (scanLines rd) = some (RandrParse rd))
      ∧ (∀ v line, ∃ f tr, innerLoop fuel v line = some (f, tr) ∧ tr.length ≤ 2
          ∧ tr.count State.StateMode ≤ 1 ∧ tr.count State.StateOutput ≤ 1)
      ∧ (∀ v v1 line, switchPass v line = Pass.again v1 →
          v.state = State.StateMode ∧ v1.state = State.StateOutput)
      ∧ (∀ (v : Vars) line, v.state = State.StateOutput →
          (∃ v1, switchPass v line = Pass.leave (Flow.nextLine v1))
            ∨ ∃ e, switchPass v line = Pass.leave (Flow.ret ([], some e))) := by
  obtain ⟨n, rfl⟩ : ∃ n, fuel = n + 2 := ⟨fuel - 2, by omega⟩
  refine ⟨fun rd => runLines_two n _ _, ?_, fun v v1 line h => switchPass_again h, ?_⟩
  · intro v line
    refine ⟨_, _, innerLoop_two n v line, ?_⟩
    split_ifs with hc
    · exact ⟨by simp, by decide, by decide⟩
    · cases v.state <;> exact ⟨by simp, by decide, by decide⟩
  · intro v line hs
    rw [switchPass_other v line (by rw [hs]; simp)]
    unfold dispatch
    rw [hs]
    simp only
    rcases caseOutput_cases v line with ⟨e, he⟩ | he
    · exact Or.inr ⟨e, by rw [he]⟩
    · exact Or.inl ⟨_, by rw [he]⟩

theorem RandrParse_terminates_witness :
    runLines 2 {} (scanLines (ascii "Screen 0\nDP-1 connected\n  1024x768 60.00*+\nHDMI-1 disconnected\n"))
        = some (Outcome.returned
            ([{ Name := ascii "DP-1", Connected := true,
                Modes := [{ Name := ascii "1024x768", Default := true, Active := true }] },
              { Name := ascii "HDMI-1", Connected := false, Modes := [] }], none))
      ∧ (innerLoop 2 { state := State.StateMode, output := { Name := ascii "DP-1" } }
            (ascii "HDMI-1 disconnected")).map Prod.snd
          = some [State.StateMode, State.StateOutput]
      ∧ innerLoop 1 { state := State.StateMode, output := { Name := ascii "DP-1" } }
            (ascii "HDMI-1 disconnected") = none :=
  ⟨((RandrParse_terminates 2 (le_refl 2)).1
      (ascii "Screen 0\nDP-1 connected\n  1024x768 60.00*+\nHDMI-1 disconnected\n")).trans
      (by decide),
   by decide, by decide⟩

/-! ## Lines and tokens that do not fit the scanner's buffer -/

theorem replicate_mem (n b : Nat) : ∀ x ∈ List.replicate n b, x = b :=
  fun _ hx => List.eq_of_mem_replicate hx

theorem replicate_long (b : Nat) : MaxScanTokenSize ≤ (List.replicate 65536 b).length := by
  rw [List.length_replicate]
  decide

theorem scanLines_long_line (pre X : Bytes) (hpre : ∀ x ∈ pre, x ≠ 0x0A)
    (hX : ∀ x ∈ X, x ≠ 0x0A) (hlen : MaxScanTokenSize ≤ X.length) :
    scanLines (pre ++ X) = [] := by
  have h := scanLines_too_long (pre ++ X) []
    (fun x hx => by
      rcases List.mem_append.1 hx with h1 | h1
      · exact hpre x h1
      · exact hX x h1)
    (by rw [List.length_append]; omega) (Or.inl rfl)
  rw [List.append_nil] at h
  exact h

theorem HasPrefix_head_ne (b p : Nat) (t ps : Bytes) (h : b ≠ p) :
    HasPrefix (b :: t) (p :: ps) = false := by
  unfold HasPrefix
  rw [Bool.and_eq_false_iff]
  right
  rw [List.length_cons, List.take_succ_cons]
  simp [h]

theorem ParseOutputLine_ascii_header (name state X : Bytes)
    (hn : ∀ x ∈ name, x < 0x80 ∧ isSpace x = false) (hn0 : name ≠ [])
    (hnl : name.length < MaxScanTokenSize)
    (hs : ∀ x ∈ state, x < 0x80 ∧ isSpace x = false) (hs0 : state ≠ [])
    (hsl : state.length < MaxScanTokenSize) :
    words (name ++ 0x20 :: (state ++ 0x20 :: X)) = name :: state :: words X := by
  have h1 := Scan_ascii_word [] name (state ++ 0x20 :: X) (by simp) hn hn0 hnl
  have h2 := Scan_ascii_word [] state X (by simp) hs hs0 hsl
  rw [List.nil_append] at h1 h2
  rw [words_of_Scan_some h1, words_of_Scan_some h2]

theorem Scan_long (X : Bytes) (hX : ∀ x ∈ X, x < 0x80 ∧ isSpace x = false)
    (hlen : MaxScanTokenSize ≤ X.length) : Scan X = none := by
  have h := Scan_ascii_long [] X [] (by simp) hX hlen
  rw [List.nil_append, List.append_nil] at h
  exact h

/-- C1 fails on a header line that is too long for the line scanner: in the
document made of the line `Screen 0` and the group whose header is
`eDP-1 connected ` followed by 65536 times `x`, the header is accepted by
`ParseOutputLine` and does not begin with two spaces, but `RandrParse` returns
no output (and no error). -/
theorem RandrParse_grouping_long_header :
    (ParseOutputLine (ascii "eDP-1 connected " ++ List.replicate 65536 120)).2 = none
      ∧ HasPrefix (ascii "eDP-1 connected " ++ List.replicate 65536 120) (ascii "  ") = false
      ∧ RandrParse (ascii "Screen 0\n" ++ (ascii "eDP-1 connected " ++ List.replicate 65536 120))
        = Outcome.returned ([], none) := by
  have key : ∀ X : Bytes, (∀ x ∈ X, x = 120) → MaxScanTokenSize ≤ X.length →
      (ParseOutputLine (ascii "eDP-1 connected " ++ X)).2 = none
        ∧ HasPrefix (ascii "eDP-1 connected " ++ X) (ascii "  ") = false
        ∧ RandrParse (ascii "Screen 0\n" ++ (ascii "eDP-1 connected " ++ X))
          = Outcome.returned ([], none) := by
    intro X hX hlen
    refine ⟨?_, ?_, ?_⟩
    · have e : ascii "eDP-1 connected " ++ X
          = ascii "eDP-1" ++ 0x20 :: (ascii "connected" ++ 0x20 :: X) := rfl
      rw [e, ParseOutputLine_words,
        ParseOutputLine_ascii_header (ascii "eDP-1") (ascii "connected") X (by decide)
          (by decide) (by decide) (by decide) (by decide) (by decide)]
      rfl
    · exact HasPrefix_head_ne 101 32 _ _ (by decide)
    · have e : ascii "Screen 0\n" ++ (ascii "eDP-1 connected " ++ X)
          = ascii "Screen 0" ++ 0x0A :: (ascii "eDP-1 connected " ++ X) := rfl
      unfold RandrParse
      rw [e, scanLines_line _ _ (by decide) (by decide),
        scanLines_long_line _ X (by decide) (fun x hx => by rw [hX x hx]; decide) hlen]
      decide
  exact key _ (replicate_mem _ _) (replicate_long _)

/-- C1, amended: grouping.  When the line scanner yields from the input a
first line starting with `Screen ` followed by the lines of groups (which it
does when every line of the document is shorter than 65536 bytes), each group
a header line that `ParseOutputLine` accepts and that does not begin with two
spaces followed by mode lines that `ParseModeLine` accepts, `RandrParse`
returns without error one output per group, in input order; each output has
the name and connection state `ParseOutputLine` returns for its header and as
modes the results of `ParseModeLine` on its mode lines, in input order. -/
theorem RandrParse_grouping (rd first : Bytes) (groups : List (Bytes × List Bytes))
    (hrd : scanLines rd = first :: groupLines groups)
    (hfirst : HasPrefix first (ascii "Screen ") = true)
    (hhdr : ∀ g ∈ groups,
      (ParseOutputLine g.1).2 = none ∧ HasPrefix g.1 (ascii "  ") = false)
    (hmode : ∀ g ∈ groups, ∀ m ∈ g.2,
      ParseModeLine m = Outcome.returned (modeOf m, none)) :
    RandrParse rd = Outcome.returned (groups.map groupOutput, none) := by
  unfold RandrParse
  rw [hrd]
  exact RandrParseLines_grouping first groups hfirst hhdr hmode

theorem RandrParse_grouping_witness :
    RandrParse (ascii ("Screen 0: minimum 8 x 8\neDP-1 connected primary 1920x1080+0+0\n"
          ++ "   1920x1080     60.01*+  59.93\n   1680x1050     59.95\nHDMI-1 disconnected\n"))
        = Outcome.returned
            ([{ Name := ascii "eDP-1", Connected := true,
                Modes := [{ Name := ascii "1920x1080", Default := true, Active := true },
                          { Name := ascii "1680x1050", Default := false, Active := false }] },
              { Name := ascii "HDMI-1", Connected := false, Modes := [] }], none) :=
  (RandrParse_grouping
      (ascii ("Screen 0: minimum 8 x 8\neDP-1 connected primary 1920x1080+0+0\n"
          ++ "   1920x1080     60.01*+  59.93\n   1680x1050     59.95\nHDMI-1 disconnected\n"))
      (ascii "Screen 0: minimum 8 x 8")
      [(ascii "eDP-1 connected primary 1920x1080+0+0",
          [ascii "   1920x1080     60.01*+  59.93", ascii "   1680x1050     59.95"]),
       (ascii "HDMI-1 disconnected", [])]
      (by decide) (by decide) (by decide) (by decide)).trans (by decide)

/-- C2 fails on a first token that is too long for the word scanner: the line
made of 65536 times `a` followed by ` connected` has that name as first token
and `connected` as second, but the first `ws.Scan()` is false and
`ParseOutputLine` returns the name-not-found error. -/
theorem ParseOutputLine_long_name :
    fields (List.replicate 65536 97 ++ ascii " connected")
        = [List.replicate 65536 97, ascii "connected"]
      ∧ ParseOutputLine (List.replicate 65536 97 ++ ascii " connected")
        = ({}, some (Error.nameNotFound (List.replicate 65536 97 ++ ascii " connected"))) := by
  have key : ∀ X : Bytes, (∀ x ∈ X, x = 97) → MaxScanTokenSize ≤ X.length →
      fields (X ++ ascii " connected") = [X, ascii "connected"]
        ∧ ParseOutputLine (X ++ ascii " connected")
          = ({}, some (Error.nameNotFound (X ++ ascii " connected"))) := by
    intro X hX hlen
    have hA : ∀ x ∈ X, x < 0x80 ∧ isSpace x = false := fun x hx => by rw [hX x hx]; decide
    have hne : X ≠ [] := by
      intro hc
      rw [hc] at hlen
      exact absurd hlen (by decide)
    constructor
    · have hf := fields_two_words [] X (ascii "connected") (by simp) hA hne (by decide)
        (by decide)
      rw [List.nil_append] at hf
      exact hf
    · have h := Scan_ascii_long [] X (ascii " connected") (by simp) hA hlen
      rw [List.nil_append] at h
      rw [ParseOutputLine, h]
  exact key _ (replicate_mem _ _) (replicate_long _)

/-- C3 fails on a mode name that is too long for the word scanner: the line
made of two spaces, 65536 times `a` and ` 60.00*+` begins with two spaces and
has two tokens, the rate token `60.00*+` of seven bytes, but the first
`ws.Scan()` is false and `ParseModeLine` returns the mode-name error. -/
theorem ParseModeLine_long_name :
    HasPrefix (ascii "  " ++ (List.replicate 65536 97 ++ ascii " 60.00*+")) (ascii "  ") = true
      ∧ fields (ascii "  " ++ (List.replicate 65536 97 ++ ascii " 60.00*+"))
        = [List.replicate 65536 97, ascii "60.00*+"]
      ∧ ParseModeLine (ascii "  " ++ (List.replicate 65536 97 ++ ascii " 60.00*+"))
        = Outcome.returned ({}, some (Error.modeNameNotFound
            (ascii "  " ++ (List.replicate 65536 97 ++ ascii " 60.00*+")))) := by
  have key : ∀ X : Bytes, (∀ x ∈ X, x = 97) → MaxScanTokenSize ≤ X.length →
      HasPrefix (ascii "  " ++ (X ++ ascii " 60.00*+")) (ascii "  ") = true
        ∧ fields (ascii "  " ++ (X ++ ascii " 60.00*+")) = [X, ascii "60.00*+"]
        ∧ ParseModeLine (ascii "  " ++ (X ++ ascii " 60.00*+"))
          = Outcome.returned ({}, some (Error.modeNameNotFound
              (ascii "  " ++ (X ++ ascii " 60.00*+")))) := by
    intro X hX hlen
    have hA : ∀ x ∈ X, x < 0x80 ∧ isSpace x = false := fun x hx => by rw [hX x hx]; decide
    have hne : X ≠ [] := by
      intro hc
      rw [hc] at hlen
      exact absurd hlen (by decide)
    have hp : HasPrefix (ascii "  " ++ (X ++ ascii " 60.00*+")) (ascii "  ") = true := by
      rw [HasPrefix_iff]
      exact List.prefix_append _ _
    refine ⟨hp, ?_, ?_⟩
    · exact fields_two_words (ascii "  ") X (ascii "60.00*+") (by decide) hA hne (by decide)
        (by decide)
    · have h := Scan_ascii_long (ascii "  ") X (ascii " 60.00*+") (by decide) hA hlen
      rw [ParseModeLine, hp, h]
      rfl
  exact key _ (replicate_mem _ _) (replicate_long _)

/-- C10 fails on tokens that are too long for the word scanner: the line made
of 65536 times `b` followed by ` disconnected` has two tokens, the second
exactly `disconnected`, and `ParseOutputLine` fails on it; the line `DP-1 `
followed by 65536 times `c` has two tokens, and `ParseOutputLine` fails
because of the second, with the state-not-found error that carries the line,
not the token. -/
theorem ParseOutputLine_long_tokens :
    fields (List.replicate 65536 98 ++ ascii " disconnected")
        = [List.replicate 65536 98, ascii "disconnected"]
      ∧ ParseOutputLine (List.replicate 65536 98 ++ ascii " disconnected")
        = ({}, some (Error.nameNotFound (List.replicate 65536 98 ++ ascii " disconnected")))
      ∧ fields (ascii "DP-1 " ++ List.replicate 65536 99)
        = [ascii "DP-1", List.replicate 65536 99]
      ∧ ParseOutputLine (ascii "DP-1 " ++ List.replicate 65536 99)
        = ({}, some (Error.stateNotFound (ascii "DP-1 " ++ List.replicate 65536 99))) := by
  have ne_nil : ∀ X : Bytes, MaxScanTokenSize ≤ X.length → X ≠ [] := by
    intro X hlen hc
    rw [hc] at hlen
    exact absurd hlen (by decide)
  have key1 : ∀ X : Bytes, (∀ x ∈ X, x = 98) → MaxScanTokenSize ≤ X.length →
      fields (X ++ ascii " disconnected") = [X, ascii "disconnected"]
        ∧ ParseOutputLine (X ++ ascii " disconnected")
          = ({}, some (Error.nameNotFound (X ++ ascii " disconnected"))) := by
    intro X hX hlen
    have hA : ∀ x ∈ X, x < 0x80 ∧ isSpace x = false := fun x hx => by rw [hX x hx]; decide
    constructor
    · have hf := fields_two_words [] X (ascii "disconnected") (by simp) hA (ne_nil X hlen)
        (by decide) (by decide)
      rw [List.nil_append] at hf
      exact hf
    · have h := Scan_ascii_long [] X (ascii " disconnected") (by simp) hA hlen
      rw [List.nil_append] at h
      rw [ParseOutputLine, h]
  have key2 : ∀ X : Bytes, (∀ x ∈ X, x = 99) → MaxScanTokenSize ≤ X.length →
      fields (ascii "DP-1 " ++ X) = [ascii "DP-1", X]
        ∧ ParseOutputLine (ascii "DP-1 " ++ X)
          = ({}, some (Error.stateNotFound (ascii "DP-1 " ++ X))) := by
    intro X hX hlen
    have hA : ∀ x ∈ X, x < 0x80 ∧ isSpace x = false := fun x hx => by rw [hX x hx]; decide
    have e : ascii "DP-1 " ++ X = ascii "DP-1" ++ 0x20 :: X := rfl
    constructor
    · have hf := fields_two_words [] (ascii "DP-1") X (by simp) (by decide) (by decide) hA
        (ne_nil X hlen)
      rw [List.nil_append] at hf
      rw [e]
      exact hf
    · have h1 := Scan_ascii_word [] (ascii "DP-1") X (by simp) (by decide) (by decide)
        (by decide)
      rw [List.nil_append] at h1
      have h2 := Scan_long X hA hlen
      rw [ParseOutputLine, e, h1]
      simp only [h2]
  obtain ⟨a1, a2⟩ := key1 _ (replicate_mem _ _) (replicate_long _)
  obtain ⟨b1, b2⟩ := key2 _ (replicate_mem _ _) (replicate_long _)
  exact ⟨a1, a2, b1, b2⟩

/-- C8 fails on a first line that is too long for the line scanner: the input
made of 65536 times `x` has one line, which does not have the prefix
`Screen `, but the scanner yields no line and `RandrParse` returns no outputs
and no error. -/
theorem RandrParse_long_first_line :
    HasPrefix (List.replicate 65536 120) (ascii "Screen ") = false
      ∧ RandrParse (List.replicate 65536 120) = Outcome.returned ([], none) := by
  refine ⟨HasPrefix_head_ne 120 83 (List.replicate 65535 120) (ascii "creen ") (by decide), ?_⟩
  have h := scanLines_long_line [] (List.replicate 65536 120) (by simp)
    (fun x hx => by rw [replicate_mem _ _ x hx]; decide) (replicate_long _)
  rw [List.nil_append] at h
  unfold RandrParse
  rw [h]
  decide

/-- C17 fails on a line that is too long for the line scanner: in the input
made of the lines `Screen 0`, `HDMI-1 disconnected` and 65536 times `y`, the
third line does not begin with two spaces and is rejected by
`ParseOutputLine`, but `RandrParse` succeeds and returns the output `HDMI-1`. -/
theorem RandrParse_succeeds_long_line :
    HasPrefix (List.replicate 65536 121) (ascii "  ") = false
      ∧ (ParseOutputLine (List.replicate 65536 121)).2
        = some (Error.nameNotFound (List.replicate 65536 121))
      ∧ RandrParse (ascii "Screen 0\nHDMI-1 disconnected\n" ++ List.replicate 65536 121)
        = Outcome.returned ([{ Name := ascii "HDMI-1", Connected := false }], none) := by
  have key : ∀ X : Bytes, (∀ x ∈ X, x = 121) → MaxScanTokenSize ≤ X.length →
      (ParseOutputLine X).2 = some (Error.nameNotFound X)
        ∧ RandrParse (ascii "Screen 0\nHDMI-1 disconnected\n" ++ X)
          = Outcome.returned ([{ Name := ascii "HDMI-1", Connected := false }], none) := by
    intro X hX hlen
    have hs := Scan_long X (fun x hx => by rw [hX x hx]; decide) hlen
    refine ⟨by rw [ParseOutputLine, hs], ?_⟩
    have e : ascii "Screen 0\nHDMI-1 disconnected\n" ++ X
        = ascii "Screen 0" ++ 0x0A :: (ascii "HDMI-1 disconnected" ++ 0x0A :: X) := rfl
    have h := scanLines_long_line [] X (by simp) (fun x hx => by rw [hX x hx]; decide) hlen
    rw [List.nil_append] at h
    unfold RandrParse
    rw [e, scanLines_line _ _ (by decide) (by decide),
      scanLines_line _ _ (by decide) (by decide), h]
    decide
  obtain ⟨h1, h2⟩ := key _ (replicate_mem _ _) (replicate_long _)
  exact ⟨HasPrefix_head_ne 121 32 (List.replicate 65535 121) (ascii " ") (by decide), h1, h2⟩

end Grobi
